import Mathlib

/-!
Verification development for the `code_packer` repository (`src/main.js`).

The program is a single-page JS tool that flattens a project tree into one
text bundle (`doFlatten`), and parses such a bundle back into files
(`inflateToZip`), plus a path filter (`shouldIgnore` / `parseGitIgnore`),
a tree renderer (`generateTree`) and a token estimator (`estimateTokens`).

Modelling conventions:
* JS strings are modelled as `List Char`.  JS strings are UTF-16 code-unit
  sequences; we identify a JS string with its sequence of Unicode scalar
  values, which is faithful for surrogate-free (BMP) text — every string
  manipulated by the claims is of this form.
* JS regexes that appear in the source are modelled by specialised
  executable matchers that reproduce the backtracking search order of the
  concrete pattern (greedy / lazy quantifier priority, alternation order,
  leftmost match, `lastIndex` advancing of `exec` and `replace`).
* `String.prototype.toLowerCase` is modelled by `Char.toLower` (ASCII
  case mapping); all denylist entries and all inputs considered here are
  ASCII, where the two coincide.
-/

namespace CodePacker

/-- Characters matched by the JS regex class `\s` (ECMAScript WhiteSpace
together with LineTerminator); this is also the set removed by
`String.prototype.trim`. -/
def isWS (c : Char) : Bool :=
  c == ' ' || c == '\t' || c == '\n' || c == '\r' || c == '\x0b' ||
  c == '\x0c' || c == ' ' || c == ' ' ||
  (0x2000 ≤ c.toNat && c.toNat ≤ 0x200A) || c == ' ' || c == ' ' ||
  c == ' ' || c == ' ' || c == '　' || c == '﻿'

/-- Characters of the JS regex class `[\r\n]`. -/
def isNLChar (c : Char) : Bool := c == '\n' || c == '\r'

/-- ECMAScript LineTerminator characters: exactly the characters NOT
matched by `.` (dot) in a JS regex without the `s` flag. -/
def isLineTerm (c : Char) : Bool :=
  c == '\n' || c == '\r' || c == ' ' || c == ' '

/-- Characters matched by `.` in the marker regex. -/
def isDotChar (c : Char) : Bool := !(isLineTerm c)

/-- Characters of the JS regex class `[=-]` (the tolerated fences). -/
def isFence (c : Char) : Bool := c == '=' || c == '-'

/-- Length of the longest prefix of `s` all of whose characters satisfy `p`
(the amount a greedy `p*` consumes). -/
def runLen (p : Char → Bool) : List Char → Nat
  | [] => 0
  | c :: cs => if p c then runLen p cs + 1 else 0

/-- `String.prototype.trim`: strip `\s` characters from both ends. -/
def trimWS (s : List Char) : List Char :=
  ((s.dropWhile isWS).reverse.dropWhile isWS).reverse

/-- `path.replace(/\\/g, '/')`: replace every backslash by a slash. -/
def normSlash (s : List Char) : List Char :=
  s.map fun c => if c == '\\' then '/' else c

/-- `String.prototype.includes`: `needle` occurs contiguously in the
argument. -/
def hasInfix (needle : List Char) : List Char → Bool
  | [] => needle.isEmpty
  | c :: rest => needle.isPrefixOf (c :: rest) || hasInfix needle rest

/-- `String.prototype.split(sep)` for a single-character separator: the
result always has at least one component ("" splits to [""]). -/
def splitSep (sep : Char) : List Char → List (List Char)
  | [] => [[]]
  | c :: rest =>
    match splitSep sep rest with
    | h :: t => if c == sep then [] :: h :: t else (c :: h) :: t
    | [] => [[]]

/-! ## PathFilter: `ProjectProcessor.config` and `shouldIgnore` -/

/-- `config.IGNORE_DIRS` from `src/main.js` (static directory denylist). -/
def IGNORE_DIRS : List (List Char) :=
  [".git", ".svn", ".hg", ".idea", ".vscode", ".settings",
   "node_modules", "bower_components", "build", "dist", "out", "target",
   "__pycache__", ".venv", "venv", "env", ".pytest_cache",
   ".dart_tool", ".pub-cache", "bin", "obj", ".gradle", "vendor",
   "tmp", "temp", "logs", "coverage", ".next", ".nuxt",
   "ios", "android"].map String.toList

/-- `config.IGNORE_EXTS` from `src/main.js` (static extension/suffix
denylist; note the final entry `.DS_Store` contains upper-case letters). -/
def IGNORE_EXTS : List (List Char) :=
  [".png", ".jpg", ".jpeg", ".gif", ".svg", ".ico", ".webp", ".mp4", ".mp3", ".wav",
   ".pdf", ".doc", ".docx", ".xls", ".xlsx", ".ppt", ".pptx", ".zip", ".tar", ".gz", ".7z", ".rar",
   ".exe", ".dll", ".so", ".dylib", ".class", ".jar", ".db", ".sqlite", ".sqlite3",
   ".lock", "package-lock.json", "yarn.lock", "pnpm-lock.yaml", ".DS_Store"].map String.toList

/-- One parsed ignore rule (`{ rule, isDir }` in `parseGitIgnore`). -/
structure GitRule where
  rule : List Char
  isDir : Bool
deriving DecidableEq

/-- `parseGitIgnore(content)`: split on newlines, trim, drop empty lines
and `#` comments; `isDir` records a trailing slash, which
`rule.replace(/\/$/, '')` removes (one occurrence at most). -/
def parseGitIgnore (content : List Char) : List GitRule :=
  (((splitSep '\n' content).map trimWS).filter
      fun l => !l.isEmpty && !(l.head? == some '#')).map
    fun r =>
      { rule := if r.getLast? == some '/' then r.dropLast else r,
        isDir := r.getLast? == some '/' }

/-- The per-rule test of the `for (const { rule, isDir } of ...)` loop body
in `shouldIgnore` (the early `return true`s OR-combine; `isDir` is read by
the destructuring but never used). -/
def ruleMatches (parts : List (List Char)) (path fileName : List Char)
    (gr : GitRule) : Bool :=
  parts.contains gr.rule ||
  (gr.rule.contains '/' &&
    (let nr := if gr.rule.head? == some '/' then gr.rule.tail else gr.rule
     path == nr || (nr ++ ['/']).isPrefixOf path ||
       hasInfix (['/'] ++ nr ++ ['/']) path)) ||
  fileName == gr.rule ||
  (gr.rule.head? == some '*' && gr.rule.tail.isSuffixOf fileName)

/-- `shouldIgnore(path)` generalised over the two static denylists (the
source reads them from `this.config`); `rules` is `this.gitIgnoreRules`.
The `gitIgnoreRules.length > 0` guard in the source only skips an empty
loop, so it is semantically the plain `any` below. -/
def shouldIgnoreWith (dirs exts : List (List Char)) (rules : List GitRule)
    (path : List Char) : Bool :=
  let path := normSlash path
  let parts := splitSep '/' path
  let fileName := parts.getLastD []
  if parts.any fun p => dirs.contains p then true
  else if exts.any fun ext => ext.isSuffixOf (fileName.map Char.toLower) then true
  else if rules.any (ruleMatches parts path fileName) then true
  else false

/-- `shouldIgnore` with the static `config` lists of the source. -/
def shouldIgnore (rules : List GitRule) (path : List Char) : Bool :=
  shouldIgnoreWith IGNORE_DIRS IGNORE_EXTS rules path

/-! ## TokenEstimator: `estimateTokens` -/

/-- Test for the regex class `[一-龥]` in `estimateTokens`. -/
def isChinese (c : Char) : Bool := 0x4E00 ≤ c.toNat && c.toNat ≤ 0x9FA5

/-- `(text.match(/[一-龥]/g) || []).length`. -/
def chineseCount (t : List Char) : Nat := (t.filter isChinese).length

/-- `estimateTokens(text)`: `Math.ceil(chinese * 1.5 + other * 0.25)`.
The JS arithmetic is float64, which is exact on these dyadic values for
any realistic length, so it is modelled with exact rationals. -/
def estimateTokens (t : List Char) : Int :=
  ⌈(chineseCount t : ℚ) * (3 / 2) +
    ((t.length - chineseCount t : ℕ) : ℚ) * (1 / 4)⌉

/-! ## TreeRenderer: `generateTree`

JS objects enumerate their keys (`Object.keys`) with array-index keys
first in ascending numeric order, then string keys in insertion order
(OrdinaryOwnPropertyKeys).  The model keeps every children list in this
enumeration order at all times: `insertSegs` puts a new array-index key
into the sorted index section and appends any other new key at the end,
and assignment to an existing key (`r[k] = r[k] || {}`) keeps its
position. -/

/-- A JS plain object used as a tree node: children as an ordered
association list. -/
inductive JTree where
  | node : List (List Char × JTree) → JTree

/-- Children of a tree node. -/
def JTree.children : JTree → List (List Char × JTree)
  | .node cs => cs

/-- Digits-only test for array-index keys. -/
def allDigits (s : List Char) : Bool := s.all fun c => '0' ≤ c && c ≤ '9'

/-- Numeric value of a digit string. -/
def digitsVal (s : List Char) : Nat :=
  s.foldl (fun a c => a * 10 + (c.toNat - 48)) 0

/-- Whether a JS property key is an array index (canonical decimal numeral
of an integer in `[0, 2^32 - 2]`). -/
def isArrayIndex (s : List Char) : Bool :=
  !s.isEmpty && allDigits s && (s == ['0'] || !(s.head? == some '0')) &&
    digitsVal s ≤ 4294967294

/-- Place key `seg` in a children list, maintaining JS
property-enumeration order: an existing key keeps its position and is
updated through `mk (some old)`; a new array-index key goes into the
sorted index section; any other new key is appended. -/
def place (seg : List Char) (mk : Option JTree → JTree) :
    List (List Char × JTree) → List (List Char × JTree)
  | [] => [(seg, mk none)]
  | (k, t) :: cs =>
    if k = seg then (k, mk (some t)) :: cs
    else if isArrayIndex seg && (!isArrayIndex k || digitsVal seg < digitsVal k) then
      (seg, mk none) :: (k, t) :: cs
    else (k, t) :: place seg mk cs

/-- Insert one split path (`path.split('/').reduce((r,k) => r[k] = r[k] || {}, tree)`)
into a children list. -/
def insertSegs (cs : List (List Char × JTree)) :
    List (List Char) → List (List Char × JTree)
  | [] => cs
  | seg :: rest =>
    place seg
      (fun t? =>
        JTree.node (insertSegs (match t? with
          | some t => t.children
          | none => []) rest)) cs

/-- The tree built by `generateTree`'s `forEach`/`reduce` over `paths`. -/
def buildTree (paths : List (List Char)) : List (List Char × JTree) :=
  paths.foldl (fun cs p => insertSegs cs (splitSep '/' (normSlash p))) []

/-- Connector before the last child (`"└── "`). -/
def CONN_LAST : List Char := ("└── ").toList

/-- Connector before a non-last child (`"├── "`). -/
def CONN_MID : List Char := ("├── ").toList

/-- Continuation padding under a last child (`"    "`). -/
def PAD_BLANK : List Char := ("    ").toList

/-- Continuation padding under a non-last child (`"│   "`). -/
def PAD_PIPE : List Char := ("│   ").toList

mutual

/-- The recursive `print(node, prefix)` of `generateTree`. -/
def printNode : JTree → List Char → List Char
  | .node cs, pre => printList cs pre

/-- `keys.map((key, i) => ...).join('')` over an ordered children list
(`last` is `i === keys.length - 1`; children of a key are printed only
when non-empty). -/
def printList : List (List Char × JTree) → List Char → List Char
  | [], _ => []
  | (k, t) :: rest, pre =>
    (pre ++ (if rest.isEmpty then CONN_LAST else CONN_MID) ++ k ++ ['\n'] ++
      (if t.children.isEmpty then []
       else printNode t (pre ++ (if rest.isEmpty then PAD_BLANK else PAD_PIPE)))) ++
    printList rest pre

end

/-- `generateTree(paths)`. -/
def generateTree (paths : List (List Char)) : List Char :=
  let tree := buildTree paths
  if tree.isEmpty then []
  else (if paths.length > 1 then ("Root/\n").toList else []) ++ printList tree []

/-! ## BundleEncoder: `doFlatten` -/

/-- One file handed to the encoder: `{ path, content }` of a selected
`FileEntry` (the `file` handle and `selected` flag play no role in the
bundle text). -/
structure FileEntry where
  path : List Char
  content : List Char
deriving DecidableEq

/-- The 48-character `=` separator line of the bundle header. -/
def SEPARATOR : List Char := List.replicate 48 '='

/-- One encoded frame:
`` `=== File: ${cleanPath} ===\n${f.content}\n\n` `` with
`cleanPath = f.path.replace(/\\/g, '/')`. -/
def encodeFile (f : FileEntry) : List Char :=
  ("=== File: ").toList ++ normSlash f.path ++ (" ===\n").toList ++
    f.content ++ ("\n\n").toList

/-- The pure core of `doFlatten`: the bundle text built from the active
files (header, tree, separator, then the frames in order). -/
def doFlatten (files : List FileEntry) : List Char :=
  ("Project Structure:\n").toList ++ generateTree (files.map (·.path)) ++
    ("\n\n").toList ++ SEPARATOR ++ ("\n\n").toList ++
    (files.map encodeFile).flatten

/-! ## BundleDecoder: `inflateToZip`

The marker regex of the source is
`/(?:^|\r?\n)[=-]{3,}\s*File:\s*(.*?)\s*[=-]{3,}(?:\r?\n|$)/g`.
It is modelled by a specialised matcher: each quantifier contributes the
list of consumption lengths it would try, in the engine's backtracking
priority order (greedy: longest first; lazy: shortest first; alternation:
left branch first), and sequencing takes the first combination that
completes — exactly the leftmost‑biased depth-first search a backtracking
engine performs on this pattern. -/

/-- Ascending run of `k` naturals starting at `start`. -/
def ascFrom (start : Nat) : Nat → List Nat
  | 0 => []
  | k + 1 => start :: ascFrom (start + 1) k

/-- Descending run of `k` naturals starting down from `top`. -/
def descFrom (top : Nat) : Nat → List Nat
  | 0 => []
  | k + 1 => top :: descFrom (top - 1) k

/-- Priority list of a greedy `\s*` on `s`: longest first. -/
def wsChoices (s : List Char) : List Nat :=
  descFrom (runLen isWS s) (runLen isWS s + 1)

/-- Priority list of a greedy `[=-]{3,}` on `s`: longest first, nothing
below three. -/
def fenceChoices (s : List Char) : List Nat :=
  let m := runLen isFence s
  if 3 ≤ m then descFrom m (m - 2) else []

/-- Priority list of the lazy `(.*?)` on `s`: shortest first (`.` matches
everything but a LineTerminator). -/
def dotChoices (s : List Char) : List Nat :=
  ascFrom 0 (runLen isDotChar s + 1)

/-- Consumptions of `\r?\n` on `s` (the greedy `\r?` makes this at most
one possibility: `\r\n` when present, else a lone `\n`). -/
def nlLens : List Char → List Nat
  | [] => []
  | [c] => if c == '\n' then [1] else []
  | c :: c2 :: _ =>
    if c == '\r' && c2 == '\n' then [2] else if c == '\n' then [1] else []

/-- `(?:^|\r?\n)`: the zero-width `^` branch (tried first) applies only at
index 0. -/
def aChoices (atStart : Bool) (s : List Char) : List Nat :=
  (if atStart then [0] else []) ++ nlLens s

/-- `(?:\r?\n|$)`: the line-break branch, then end-of-input. -/
def hChoices (s : List Char) : List Nat :=
  nlLens s ++ (if s.isEmpty then [0] else [])

/-- The `\s*[=-]{3,}(?:\r?\n|$)` part after the lazy capture: first
completable combination, returning its total length. -/
def tailFGH (s : List Char) : Option Nat :=
  (wsChoices s).findSome? fun f =>
    (fenceChoices (s.drop f)).findSome? fun g =>
      (hChoices ((s.drop f).drop g)).findSome? fun h =>
        some (f + g + h)

/-- `(.*?)\s*[=-]{3,}(?:\r?\n|$)`: the lazy capture grows until the tail
completes; returns (consumed length, captured text). -/
def matchTail (s : List Char) : Option (Nat × List Char) :=
  (dotChoices s).findSome? fun e =>
    (tailFGH (s.drop e)).map fun n => (e + n, s.take e)

/-- One attempt of the whole marker pattern at a given position
(`atStart` means the position is index 0); returns (length of the whole
match, captured path). -/
def matchAt (atStart : Bool) (s : List Char) : Option (Nat × List Char) :=
  (aChoices atStart s).findSome? fun a =>
    (fenceChoices (s.drop a)).findSome? fun b =>
      (wsChoices ((s.drop a).drop b)).findSome? fun c =>
        let s3 := ((s.drop a).drop b).drop c
        if ("File:").toList.isPrefixOf s3 then
          (wsChoices (s3.drop 5)).findSome? fun d =>
            (matchTail ((s3.drop 5).drop d)).map fun x =>
              (a + b + c + 5 + d + x.1, x.2)
        else none

/-- Fuelled scan for `findFrom`; the fuel is exactly the number of
candidate start positions left (`text.length + 1 - j`), so running out of
fuel coincides with passing the end of the text. -/
def findFromF (text : List Char) : Nat → Nat → Option (Nat × Nat × List Char)
  | _, 0 => none
  | j, fuel + 1 =>
    match matchAt (j == 0) (text.drop j) with
    | some (len, cap) => some (j, len, cap)
    | none => findFromF text (j + 1) fuel

/-- `markerRegex.exec` resuming at `j`: the engine scans candidate start
positions left to right from `lastIndex`; returns (start, length,
capture) of the first position that matches. -/
def findFrom (text : List Char) (j : Nat) : Option (Nat × Nat × List Char) :=
  findFromF text j (text.length + 1 - j)

/-- One recorded match of the `while (... exec ...)` loop:
`{ path: match[1].trim(), startIndex: match.index,
   endIndex: match.index + match[0].length }`. -/
structure MarkerMatch where
  path : List Char
  startIndex : Nat
  endIndex : Nat
deriving DecidableEq

/-- The exec loop: collect matches, resuming each search at the end of
the previous match.  `fuel` bounds the iterations; every match consumes
at least one character (a fence needs three), so `text.length + 1`
iterations always suffice. -/
def execLoop (text : List Char) : Nat → Nat → List MarkerMatch
  | _, 0 => []
  | pos, fuel + 1 =>
    match findFrom text pos with
    | none => []
    | some (i, len, cap) =>
      ⟨trimWS cap, i, i + len⟩ :: execLoop text (i + len) fuel

/-- All marker matches of a bundle text, in order. -/
def findMarkers (text : List Char) : List MarkerMatch :=
  execLoop text 0 (text.length + 1)

/-! Path sanitisation (`Security Optimization: Sanitize Paths`):
`.replace(/\\/g, '/')           -- normSlash`
`.replace(/^(\.\/|\/)+/, '')    -- stripLeadingDotSlash`
`.replace(/(^|[\/\\])\.\.([\/\\]|$)/g, '$1$2')  -- ddRun` -/

/-- Characters of the class `[\/\\]`. -/
def isSep (c : Char) : Bool := c == '/' || c == '\\'

/-- `^(\.\/|\/)+` removal: the greedy repetition deterministically takes
`./` when it sees `.`, `/` when it sees `/`, and stops otherwise. -/
def stripLeadingDotSlash : List Char → List Char
  | '.' :: '/' :: rest => stripLeadingDotSlash rest
  | '/' :: rest => stripLeadingDotSlash rest
  | s => s

/-- After `\.\.`, consume `([\/\\]|$)` (separator branch first); returns
(captured group 2, remaining input). -/
def ddTail : List Char → Option (List Char × List Char)
  | [] => some ([], [])
  | c :: t => if isSep c then some ([c], t) else none

/-- The `^\.\.([\/\\]|$)` alternative (only available at index 0). -/
def ddMatchStart : List Char → Option (List Char × List Char)
  | '.' :: '.' :: t => ddTail t
  | _ => none

/-- The `[\/\\]\.\.([\/\\]|$)` alternative. -/
def ddMatchMid : List Char → Option (List Char × List Char)
  | c :: '.' :: '.' :: t =>
    if isSep c then (ddTail t).map fun g => (c :: g.1, g.2) else none
  | _ => none

/-- Match `(^|[\/\\])\.\.([\/\\]|$)` at one position (`atStart` = index 0;
the `^` alternative is tried first); returns (the replacement `$1$2`,
remaining input after the match). -/
def ddMatch (atStart : Bool) (s : List Char) : Option (List Char × List Char) :=
  match (if atStart then ddMatchStart s else none) with
  | some g => some g
  | none => ddMatchMid s

/-- Fuelled scan for `ddRun`; by `ddMatch_rest_length` every step strictly
shortens the input, so fuel `s.length` never runs out on a non-empty
input. -/
def ddRunF : Nat → Bool → List Char → List Char
  | 0, _, s => s
  | fuel + 1, atStart, s =>
    match s with
    | [] => []
    | c0 :: rest =>
      match ddMatch atStart (c0 :: rest) with
      | some (repl, r) => repl ++ ddRunF fuel false r
      | none => c0 :: ddRunF fuel false rest

/-- The `g`-flagged replace: scan left to right, replace each
non-overlapping match by `$1$2`, resume after the match end. -/
def ddRun (atStart : Bool) (s : List Char) : List Char :=
  ddRunF s.length atStart s

/-- The composed `cleanPath` sanitiser of `inflateToZip`. -/
def sanitizePath (p : List Char) : List Char :=
  ddRun true (stripLeadingDotSlash (normSlash p))

/-! Content cleanup:
`rawContent.replace(/^\s*[\r\n]/, '').replace(/[\r\n]\s*$/, '')` -/

/-- All-whitespace test. -/
def allWS (s : List Char) : Bool := s.all isWS

/-- `.replace(/^\s*[\r\n]/, '')`: the greedy `\s*` takes the largest `k`
whose first `k` characters are whitespace and are followed by a newline
character, and the match (those `k + 1` characters) is removed. -/
def stripLeadNL (s : List Char) : List Char :=
  match (descFrom (s.length - 1) s.length).find? (fun k =>
      allWS (s.take k) && isNLChar ((s.drop k).headD ' ')) with
  | some k => s.drop (k + 1)
  | none => s

/-- `.replace(/[\r\n]\s*$/, '')`: the leftmost newline character followed
by nothing but whitespace is found, and the suffix from it is removed. -/
def stripTrailNL (s : List Char) : List Char :=
  match (ascFrom 0 s.length).find? (fun j =>
      isNLChar ((s.drop j).headD ' ') && allWS ((s.drop j).drop 1)) with
  | some j => s.take j
  | none => s

/-- Both content cleanups, in source order. -/
def cleanContent (s : List Char) : List Char := stripTrailNL (stripLeadNL s)

/-- Decode failures surfaced by `inflateToZip`, in the order the source
checks them: the `内容为空` toast (`if (!content.trim()) return`, empty or
whitespace-only input), the `未找到有效的文件标记` alert (no markers at
all) and the `未提取到任何有效文件` toast (every entry skipped). -/
inductive DecodeError where
  | emptyContent
  | noMarkersFound
  | noValidFiles
deriving DecidableEq

deriving instance DecidableEq for Except

/-- Processing of one match inside the extraction `for` loop: content
span up to the next match (or end of text), path sanitisation, the
skip test (`!cleanPath || cleanPath.endsWith('/')`), content cleanup. -/
def decodeEntry (text : List Char) (m : MarkerMatch) (nextStart : Nat) :
    Option FileEntry :=
  let rawContent := (text.take nextStart).drop m.endIndex
  let cleanPath := sanitizePath m.path
  if cleanPath.isEmpty || cleanPath.getLast? == some '/' then none
  else some ⟨cleanPath, cleanContent rawContent⟩

/-- The extraction loop over all matches. -/
def decodeLoop (text : List Char) : List MarkerMatch → List FileEntry
  | [] => []
  | m :: rest =>
    let nextStart := match rest with
      | m2 :: _ => m2.startIndex
      | [] => text.length
    match decodeEntry text m nextStart with
    | some f => f :: decodeLoop text rest
    | none => decodeLoop text rest

/-- The pure core of `inflateToZip`: the `!content.trim()` early return
on empty or whitespace-only input, all recognised markers, the
`NoMarkersFound` error on zero matches, per-entry skip of unsafe paths,
and the no-valid-files error when every entry was skipped. -/
def inflateToZip (text : List Char) : Except DecodeError (List FileEntry) :=
  if (trimWS text).isEmpty then .error .emptyContent
  else
    let ms := findMarkers text
    if ms.isEmpty then .error .noMarkersFound
    else
      let files := decodeLoop text ms
      if files.isEmpty then .error .noValidFiles
      else .ok files

/-! ## Predicates and layout combinators used by the round-trip analysis -/

/-- Conditions on a path under which its encoded marker decodes back to
exactly the same path: non-empty; no backslash (the encoder would rewrite
it) and no LineTerminator (the marker regex could not span it); no
leading or trailing JS whitespace (capture trimming and the `\s*` parts
of the pattern would strip it); not starting with `/` or `./` and
containing no `..` segment and not ending in `/` (path sanitisation
would rewrite or skip it). -/
def goodPath (p : List Char) : Bool :=
  !p.isEmpty &&
  p.all (fun c => !(c == '\\') && !isLineTerm c) &&
  !isWS (p.headD ' ') && !isWS (p.getLastD ' ') &&
  !(p.headD ' ' == '/') && !(['.', '/'].isPrefixOf p) &&
  !(p == ['.', '.']) && !(['.', '.', '/'].isPrefixOf p) &&
  !(['/', '.', '.'].isSuffixOf p) && !(hasInfix (['/', '.', '.', '/']) p) &&
  !(p.getLastD ' ' == '/')

/-- No prefix of `c` matches `^\s*[\r\n]` even with one more newline
appended (index `c.length` probes the appended newline, so an
all-whitespace non-empty `c` is also ruled out). -/
def leadOK (c : List Char) : Bool :=
  (List.range (c.length + 1)).all fun k =>
    !(allWS (c.take k) && isNLChar (((c ++ ['\n']).drop k).headD ' '))

/-- No position inside `c` starts a `[\r\n]\s*$` match of the decoded
span (a newline character followed by whitespace only). -/
def trailOK (c : List Char) : Bool :=
  (List.range c.length).all fun j =>
    !(isNLChar ((c.drop j).headD ' ') && allWS (c.drop (j + 1)))

/-- Conditions on a content under which the decoder's span cleanup
removes exactly the separator newlines the encoder added: the leading
whitespace run contains no newline and does not swallow the whole
content, and the trailing whitespace run contains no newline.  The empty
content is always recovered exactly. -/
def goodContent (c : List Char) : Bool := c.isEmpty || (leadOK c && trailOK c)

/-- The `=== File: <path> ===` line the encoder writes for `f`. -/
def markerLine (f : FileEntry) : List Char :=
  ("=== File: ").toList ++ normSlash f.path ++ (" ===").toList

/-- One frame of the bundle, regrouped so that it starts with the newline
that precedes its marker and ends with the first of the two newlines
after its content. -/
def chunk (f : FileEntry) : List Char :=
  '\n' :: markerLine f ++ '\n' :: f.content ++ ['\n']

/-- Everything of the bundle before the first chunk (ending with the
first newline after the separator line). -/
def headerPart (files : List FileEntry) : List Char :=
  ("Project Structure:\n").toList ++ generateTree (files.map (·.path)) ++
    ("\n\n").toList ++ SEPARATOR ++ ['\n']

/-- Everything of the bundle from the first chunk on: the chunks in
order, then the bundle's final newline. -/
def tailText (files : List FileEntry) : List Char :=
  (files.map chunk).flatten ++ ['\n']

/-- Start indices of the encoded markers (each match begins at the
newline preceding its fence), accumulating chunk lengths from `pos`. -/
def markerStartsFrom : Nat → List FileEntry → List Nat
  | _, [] => []
  | pos, f :: rest => pos :: markerStartsFrom (pos + (chunk f).length) rest

/-- Start indices of the encoded markers within `doFlatten files`. -/
def markerStarts (files : List FileEntry) : List Nat :=
  markerStartsFrom (headerPart files).length files

/-- The intended matches of the encoded bundle: at each marker start, the
match spans the leading newline, the marker line and its closing newline
(`path.length + 16` characters), capturing the path. -/
def intendedFrom : Nat → List FileEntry → List MarkerMatch
  | _, [] => []
  | pos, f :: rest =>
    ⟨f.path, pos, pos + f.path.length + 16⟩ ::
      intendedFrom (pos + (chunk f).length) rest

/-- No marker match starts anywhere in the encoded bundle except at the
intended marker positions — the contents contain nothing that completes
the (deliberately loose) marker pattern.  This is the formal reading of
the claim's proviso that content lines match marker syntax "only
loosely". -/
def noSpurious (files : List FileEntry) : Prop :=
  ∀ j < (doFlatten files).length, j ∉ markerStarts files →
    matchAt (j == 0) ((doFlatten files).drop j) = none

/-! # Theorems -/

/-! ## Fuel adequacy of `ddRunF`: every match consumes input -/

theorem ddTail_rest_length {t g r : List Char} (h : ddTail t = some (g, r)) :
    r.length ≤ t.length := by
  cases t with
  | nil =>
    simp only [ddTail, Option.some.injEq, Prod.mk.injEq] at h
    simp [← h.2]
  | cons c t =>
    simp only [ddTail] at h
    split at h
    · simp only [Option.some.injEq, Prod.mk.injEq] at h
      simp [← h.2]
    · exact absurd h (by simp)

theorem ddMatchStart_rest_length {s g r : List Char}
    (h : ddMatchStart s = some (g, r)) : r.length < s.length := by
  unfold ddMatchStart at h
  split at h
  · have := ddTail_rest_length h
    simp only [List.length_cons]
    omega
  · exact absurd h (by simp)

theorem ddMatchMid_rest_length {s g r : List Char}
    (h : ddMatchMid s = some (g, r)) : r.length < s.length := by
  unfold ddMatchMid at h
  split at h
  · rename_i c t
    split at h
    · cases hdd : ddTail t with
      | none => rw [hdd] at h; exact absurd h (by simp)
      | some g2 =>
        obtain ⟨ga, gb⟩ := g2
        rw [hdd] at h
        simp only [Option.map_some', Option.some.injEq, Prod.mk.injEq] at h
        have := ddTail_rest_length hdd
        simp only [List.length_cons, ← h.2]
        omega
    · exact absurd h (by simp)
  · exact absurd h (by simp)

theorem ddMatch_rest_length {a : Bool} {s repl r : List Char}
    (h : ddMatch a s = some (repl, r)) : r.length < s.length := by
  unfold ddMatch at h
  split at h
  · rename_i g heq
    cases h
    split at heq
    · exact ddMatchStart_rest_length heq
    · exact absurd heq (by simp)
  · exact ddMatchMid_rest_length h

/-! ## C10: token estimation -/

theorem ceil_natCast_div_four (m : ℕ) : ⌈(m : ℚ) / 4⌉ = ((m + 3) / 4 : ℕ) := by
  rw [Int.ceil_eq_iff]
  constructor
  · rw [lt_div_iff₀ (by norm_num : (0 : ℚ) < 4)]
    have h : ((((m + 3) / 4 : ℕ) : ℤ) - 1) * 4 < (m : ℤ) := by omega
    exact_mod_cast h
  · rw [div_le_iff₀ (by norm_num : (0 : ℚ) < 4)]
    have h : (m : ℤ) ≤ (((m + 3) / 4 : ℕ) : ℤ) * 4 := by omega
    exact_mod_cast h

theorem estimateTokens_closed (t : List Char) :
    estimateTokens t =
      ((6 * chineseCount t + (t.length - chineseCount t) + 3) / 4 : ℕ) := by
  unfold estimateTokens
  have key : (chineseCount t : ℚ) * (3 / 2) +
      ((t.length - chineseCount t : ℕ) : ℚ) * (1 / 4) =
      ((6 * chineseCount t + (t.length - chineseCount t) : ℕ) : ℚ) / 4 := by
    push_cast
    ring
  rw [key, ceil_natCast_div_four]

/-- C10: for every text, `estimateTokens` returns exactly
`ceil(chineseCount · 1.5 + otherCount · 0.25)` (its definition), which
equals the integer `(6·chinese + other + 3) / 4` and is never negative;
in particular `estimate("你好") = 3` and `estimate("ab") = 1`.
("Characters" are JS string characters, i.e. UTF-16 code units; all
inputs here are BMP text where these coincide with code points.) -/
theorem estimateTokens_spec :
    (∀ t : List Char,
        estimateTokens t =
          ((6 * chineseCount t + (t.length - chineseCount t) + 3) / 4 : ℕ) ∧
        0 ≤ estimateTokens t) ∧
    estimateTokens (("你好").toList) = 3 ∧
    estimateTokens (("ab").toList) = 1 := by
  refine ⟨fun t => ⟨estimateTokens_closed t, ?_⟩, ?_, ?_⟩
  · rw [estimateTokens_closed t]
    exact_mod_cast Nat.zero_le _
  · rw [estimateTokens_closed]
    rfl
  · rw [estimateTokens_closed]
    rfl

/-- C10 witness: the universally quantified part applied at `"ab"`. -/
theorem estimateTokens_spec_witness :
    estimateTokens (("ab").toList) =
      ((6 * chineseCount (("ab").toList) +
        ((("ab").toList).length - chineseCount (("ab").toList)) + 3) / 4 : ℕ) ∧
    0 ≤ estimateTokens (("ab").toList) :=
  estimateTokens_spec.1 (("ab").toList)

/-! ## C9: filter totality and monotonicity -/

theorem shouldIgnoreWith_eq_or (dirs exts : List (List Char))
    (rules : List GitRule) (path : List Char) :
    shouldIgnoreWith dirs exts rules path =
      ((splitSep '/' (normSlash path)).any (fun p => dirs.contains p) ||
       exts.any (fun ext =>
         ext.isSuffixOf
           (((splitSep '/' (normSlash path)).getLastD []).map Char.toLower)) ||
       rules.any (ruleMatches (splitSep '/' (normSlash path)) (normSlash path)
         ((splitSep '/' (normSlash path)).getLastD []))) := by
  unfold shouldIgnoreWith
  dsimp only
  split
  · rename_i h
    rw [h]
    simp
  · rename_i h
    rw [Bool.not_eq_true] at h
    split
    · rename_i h2
      rw [h, h2]
      simp
    · rename_i h2
      rw [Bool.not_eq_true] at h2
      split
      · rename_i h3
        rw [h, h2, h3]
        simp
      · rename_i h3
        rw [Bool.not_eq_true] at h3
        rw [h, h2, h3]
        simp

/-- C9: `shouldIgnore` is a total boolean function of its inputs (the
model never raises), and growing the directory denylist never un-excludes
a path. -/
theorem shouldIgnore_total_monotone :
    (∀ (rules : List GitRule) (path : List Char),
        shouldIgnore rules path = true ∨ shouldIgnore rules path = false) ∧
    (∀ (L L' exts : List (List Char)) (rules : List GitRule) (path : List Char),
        L ⊆ L' → shouldIgnoreWith L exts rules path = true →
        shouldIgnoreWith L' exts rules path = true) := by
  constructor
  · intro rules path
    rcases Bool.eq_false_or_eq_true (shouldIgnore rules path) with h | h
    · exact Or.inl h
    · exact Or.inr h
  · intro L L' exts rules path hsub h
    rw [shouldIgnoreWith_eq_or] at h ⊢
    simp only [Bool.or_eq_true, List.any_eq_true] at h ⊢
    rcases h with ((⟨p, hp, hcont⟩ | hext) | hrest)
    · refine Or.inl (Or.inl ⟨p, hp, ?_⟩)
      have hmem : p ∈ L := List.elem_iff.mp hcont
      exact List.elem_iff.mpr (hsub hmem)
    · exact Or.inl (Or.inr hext)
    · exact Or.inr hrest

/-- C9 witness: the monotonicity part applied at a concrete denylist
extension. -/
theorem shouldIgnore_total_monotone_witness :
    shouldIgnoreWith [("zzz").toList, ("www").toList] [] []
      (("a/zzz/b.txt").toList) = true :=
  shouldIgnore_total_monotone.2 [("zzz").toList]
    [("zzz").toList, ("www").toList] [] [] (("a/zzz/b.txt").toList)
    (by intro x hx; simp only [List.mem_singleton] at hx; simp [hx])
    (by decide)

/-! ## C7: ignore-rule parsing and matching -/

/-- C7: parsing `"# comment\n\nnode_modules/\n*.log\n"` yields exactly the
two rules `{node_modules, isDir}` and `{*.log, plain}`, and with those
rules loaded `pkg/node_modules/x.js` and `pkg/app.log` are excluded while
`pkg/app.txt` is not. -/
theorem parseGitIgnore_spec :
    parseGitIgnore (("# comment\n\nnode_modules/\n*.log\n").toList) =
      [⟨("node_modules").toList, true⟩, ⟨("*.log").toList, false⟩] ∧
    shouldIgnore (parseGitIgnore (("# comment\n\nnode_modules/\n*.log\n").toList))
        (("pkg/node_modules/x.js").toList) = true ∧
    shouldIgnore (parseGitIgnore (("# comment\n\nnode_modules/\n*.log\n").toList))
        (("pkg/app.log").toList) = true ∧
    shouldIgnore (parseGitIgnore (("# comment\n\nnode_modules/\n*.log\n").toList))
        (("pkg/app.txt").toList) = false := by
  refine ⟨by decide, by decide, by decide, by decide⟩

/-! ## C8: the `.DS_Store` denylist entry is dead (code bug) -/

/-- C8 (code bug): `sub/.DS_Store` is NOT excluded although `.DS_Store`
is in `IGNORE_EXTS` — the code lowercases only the file name
(`fileName.toLowerCase().endsWith(ext)`), so the mixed-case entry
`.DS_Store` can never match; a genuinely case-insensitive comparison
(both sides lowercased) would match. -/
theorem dsstore_not_excluded :
    shouldIgnore [] (("sub/.DS_Store").toList) = false ∧
    (".DS_Store").toList ∈ IGNORE_EXTS ∧
    ((".DS_Store").toList).isSuffixOf
        ((".DS_Store").toList.map Char.toLower) = false ∧
    ((".DS_Store").toList.map Char.toLower).isSuffixOf
        ((".DS_Store").toList.map Char.toLower) = true := by
  refine ⟨by decide, by decide, by decide, by decide⟩

/-! ## C2: path traversal is not fully neutralised (code bug) -/

/-- C2 (code bug): decoding a marker with path `../../etc/passwd` does
NOT yield `etc/passwd`.  The `..`-removal regex is global but
non-overlapping: consecutive `..` segments share their `/` delimiter, so
the second one survives, and the leading-`./`-or-`/` strip has already
run, so the reintroduced separator also survives.  The emitted path is
`/../etc/passwd`, which still contains a `..` segment. -/
theorem sanitize_traversal_bug :
    sanitizePath (("../../etc/passwd").toList) = ("/../etc/passwd").toList ∧
    sanitizePath (("../../etc/passwd").toList) ≠ ("etc/passwd").toList ∧
    hasInfix (("/../").toList) (sanitizePath (("../../etc/passwd").toList)) = true ∧
    inflateToZip (("=== File: ../../etc/passwd ===\nx\n\n").toList) =
      .ok [⟨("/../etc/passwd").toList, ("x").toList⟩] := by
  refine ⟨by decide, by decide, by decide, by rfl⟩

/-! ## C6: tree rendering -/

theorem place_ne_nil (seg : List Char) (mk : Option JTree → JTree)
    (cs : List (List Char × JTree)) : place seg mk cs ≠ [] := by
  cases cs with
  | nil => simp [place]
  | cons kt cs =>
    obtain ⟨k, t⟩ := kt
    unfold place
    split
    · simp
    · split
      · simp
      · simp

theorem splitSep_ne_nil (sep : Char) (s : List Char) : splitSep sep s ≠ [] := by
  cases s with
  | nil => simp [splitSep]
  | cons c rest =>
    unfold splitSep
    split
    · split
      · simp
      · simp
    · simp

theorem insertSegs_cons_ne_nil (cs : List (List Char × JTree))
    (seg : List Char) (rest : List (List Char)) :
    insertSegs cs (seg :: rest) ≠ [] := by
  unfold insertSegs
  exact place_ne_nil _ _ _

theorem foldl_insert_ne_nil (ps : List (List Char)) :
    ∀ cs : List (List Char × JTree), cs ≠ [] →
      ps.foldl (fun cs p => insertSegs cs (splitSep '/' (normSlash p))) cs ≠ [] := by
  induction ps with
  | nil => intro cs h; simpa using h
  | cons q ps ih =>
    intro cs h
    rw [List.foldl_cons]
    apply ih
    obtain ⟨s0, srest, hs⟩ :=
      List.exists_cons_of_ne_nil (splitSep_ne_nil '/' (normSlash q))
    rw [hs]
    exact insertSegs_cons_ne_nil _ _ _

theorem buildTree_cons_ne_nil (p : List Char) (ps : List (List Char)) :
    buildTree (p :: ps) ≠ [] := by
  unfold buildTree
  rw [List.foldl_cons]
  apply foldl_insert_ne_nil
  obtain ⟨s0, srest, hs⟩ :=
    List.exists_cons_of_ne_nil (splitSep_ne_nil '/' (normSlash p))
  rw [hs]
  exact insertSegs_cons_ne_nil _ _ _

theorem generateTree_of_ne_nil (paths : List (List Char))
    (h : buildTree paths ≠ []) :
    generateTree paths =
      (if paths.length > 1 then ("Root/\n").toList else []) ++
        printList (buildTree paths) [] := by
  unfold generateTree
  dsimp only
  rw [if_neg]
  simp only [List.isEmpty_iff]
  exact h

theorem printList_cons_headChar (k : List Char) (t : JTree)
    (cs : List (List Char × JTree)) :
    (printList ((k, t) :: cs) []).head? =
      some (if cs.isEmpty then '└' else '├') := by
  cases hcs : cs.isEmpty <;>
    simp [printList, hcs, CONN_LAST, CONN_MID]

theorem root_not_prefixOf_of_head (l : List Char) (h : l.head? ≠ some 'R') :
    (("Root/\n").toList).isPrefixOf l = false := by
  cases l with
  | nil => rfl
  | cons c rest =>
    simp only [List.head?_cons, ne_eq, Option.some.injEq] at h
    show (('R' == c) && _) = false
    have : ('R' == c) = false := by
      simp [BEq.beq]
      exact fun hc => h hc.symm
    rw [this]
    rfl

/-- C6: `render(["src/x.js","src/y.js"])` is exactly the claimed string;
any input of more than one path is prefixed with a synthetic `Root/`
line; a single path renders without the root line (its output starts
with a connector, never with `Root/`); empty input renders to the empty
string. -/
theorem generateTree_spec :
    generateTree [("src/x.js").toList, ("src/y.js").toList] =
      ("Root/\n└── src\n    ├── x.js\n    └── y.js\n").toList ∧
    (∀ paths : List (List Char), paths.length > 1 →
      ∃ rest, generateTree paths = ("Root/\n").toList ++ rest) ∧
    (∀ p : List Char,
      generateTree [p] = printList (buildTree [p]) [] ∧
      (("Root/\n").toList).isPrefixOf (generateTree [p]) = false) ∧
    generateTree [] = [] := by
  refine ⟨by decide, ?_, ?_, by rfl⟩
  · intro paths hlen
    obtain ⟨p, ps, rfl⟩ : ∃ p ps, paths = p :: ps := by
      cases paths with
      | nil => simp at hlen
      | cons p ps => exact ⟨p, ps, rfl⟩
    refine ⟨printList (buildTree (p :: ps)) [], ?_⟩
    rw [generateTree_of_ne_nil _ (buildTree_cons_ne_nil p ps), if_pos hlen]
  · intro p
    have hshape := generateTree_of_ne_nil [p] (buildTree_cons_ne_nil p [])
    have hlen : ¬([p].length > 1) := by simp
    rw [if_neg hlen, List.nil_append] at hshape
    refine ⟨hshape, ?_⟩
    rw [hshape]
    obtain ⟨kt, cs, hbt⟩ :=
      List.exists_cons_of_ne_nil (buildTree_cons_ne_nil p [])
    obtain ⟨k, t⟩ := kt
    rw [hbt]
    apply root_not_prefixOf_of_head
    rw [printList_cons_headChar]
    cases cs.isEmpty <;> simp

/-- C6 witness: the quantified parts applied at concrete inputs. -/
theorem generateTree_spec_witness :
    (∃ rest, generateTree [("a").toList, ("b").toList] =
      ("Root/\n").toList ++ rest) ∧
    generateTree [("a").toList] = printList (buildTree [("a").toList]) [] ∧
    (("Root/\n").toList).isPrefixOf (generateTree [("a").toList]) = false :=
  ⟨generateTree_spec.2.1 [("a").toList, ("b").toList] (by decide),
   (generateTree_spec.2.2.1 (("a").toList)).1,
   (generateTree_spec.2.2.1 (("a").toList)).2⟩

/-! ## C4: the NoMarkersFound error -/

theorem matchAt_nil (b : Bool) : matchAt b [] = none := by
  cases b <;> rfl

theorem findFromF_eq_none_iff (text : List Char) :
    ∀ (fuel j : Nat),
      (findFromF text j fuel = none ↔
        ∀ i, j ≤ i → i < j + fuel → matchAt (i == 0) (text.drop i) = none) := by
  intro fuel
  induction fuel with
  | zero =>
    intro j
    constructor
    · intro _ i h1 h2
      omega
    · intro _
      rfl
  | succ fuel ih =>
    intro j
    unfold findFromF
    cases hm : matchAt (j == 0) (text.drop j) with
    | some x =>
      obtain ⟨len, cap⟩ := x
      constructor
      · intro h
        exact absurd h (by simp)
      · intro hall
        have hj := hall j (le_refl j) (by omega)
        rw [hj] at hm
        exact absurd hm (by simp)
    | none =>
      rw [ih (j + 1)]
      constructor
      · intro h i h1 h2
        rcases Nat.eq_or_lt_of_le h1 with rfl | hlt
        · exact hm
        · exact h i hlt (by omega)
      · intro h i h1 h2
        exact h i (by omega) (by omega)

theorem findFrom_eq_none_iff (text : List Char) (j : Nat) :
    findFrom text j = none ↔
      ∀ i, j ≤ i → matchAt (i == 0) (text.drop i) = none := by
  unfold findFrom
  rw [findFromF_eq_none_iff]
  constructor
  · intro h i hji
    by_cases hi : i < j + (text.length + 1 - j)
    · exact h i hji hi
    · rw [List.drop_eq_nil_of_le (by omega)]
      exact matchAt_nil _
  · intro h i hji _
    exact h i hji

theorem execLoop_succ (text : List Char) (pos fuel : Nat) :
    execLoop text pos (fuel + 1) =
      match findFrom text pos with
      | none => []
      | some (i, len, cap) =>
        ⟨trimWS cap, i, i + len⟩ :: execLoop text (i + len) fuel := rfl

theorem findMarkers_eq_nil_iff (t : List Char) :
    findMarkers t = [] ↔ ∀ i, matchAt (i == 0) (t.drop i) = none := by
  unfold findMarkers
  rw [execLoop_succ]
  cases hf : findFrom t 0 with
  | none =>
    simp only [true_iff]
    intro i
    exact (findFrom_eq_none_iff t 0).mp hf i (Nat.zero_le i)
  | some x =>
    obtain ⟨i, len, cap⟩ := x
    constructor
    · intro h
      exact absurd h (by simp)
    · intro hall
      have : findFrom t 0 = none := by
        rw [findFrom_eq_none_iff]
        intro i _
        exact hall i
      rw [this] at hf
      exact absurd hf (by simp)

/-- C4 (amended): for input that is not empty and not whitespace-only —
the source's `!content.trim()` early return does not fire — `inflateToZip`
fails with `NoMarkersFound` exactly when no position of the input
completes the marker pattern (zero recognizable marker matches), and on
that failure no entries at all are produced; with at least one
recognizable marker this error is never raised.  The claim's
unrestricted `exactly when` is refuted by
`noMarkersFound_counterexample`: whitespace-only input has zero matches
yet raises the empty-content error instead. -/
theorem noMarkersFound_iff (t : List Char)
    (hblank : (trimWS t).isEmpty = false) :
    (inflateToZip t = .error .noMarkersFound ↔
      ∀ i ≤ t.length, matchAt (i == 0) (t.drop i) = none) ∧
    (inflateToZip t = .error .noMarkersFound →
      ∀ fs, inflateToZip t ≠ .ok fs) := by
  have hred : inflateToZip t =
      (if (findMarkers t).isEmpty then .error .noMarkersFound
       else if (decodeLoop t (findMarkers t)).isEmpty then
         .error .noValidFiles
       else .ok (decodeLoop t (findMarkers t))) := by
    unfold inflateToZip
    rw [hblank]
    rfl
  constructor
  · rw [hred]
    split
    · rename_i hms
      rw [List.isEmpty_iff] at hms
      constructor
      · intro _ i _
        exact (findMarkers_eq_nil_iff t).mp hms i
      · intro _
        rfl
    · rename_i hms
      rw [List.isEmpty_iff] at hms
      constructor
      · intro h
        split at h <;> simp_all
      · intro hall
        exfalso
        apply hms
        rw [findMarkers_eq_nil_iff]
        intro i
        by_cases hi : i ≤ t.length
        · exact hall i hi
        · rw [List.drop_eq_nil_of_le (by omega)]
          exact matchAt_nil _
  · intro h fs
    rw [h]
    simp

/-- C4 counterexample: the whitespace-only input `"   "` contains zero
recognizable file-marker matches (`findMarkers` returns none), yet
decoding does not fail with `NoMarkersFound`: the source's
`!content.trim()` check fires first and reports the empty-content
error. -/
theorem noMarkersFound_counterexample :
    findMarkers (("   ").toList) = [] ∧
    inflateToZip (("   ").toList) ≠ .error .noMarkersFound ∧
    inflateToZip (("   ").toList) = .error .emptyContent := by
  refine ⟨by decide, by decide, by decide⟩

/-- C4 witness: the non-blank `"just some text"` raises `NoMarkersFound`
(no position matches), and a non-blank text containing one well-formed
marker does not. -/
theorem noMarkersFound_iff_witness :
    inflateToZip (("just some text").toList) = .error .noMarkersFound ∧
    inflateToZip (("=== File: a ===\nx\n\n").toList) ≠
      .error .noMarkersFound :=
  ⟨((noMarkersFound_iff (("just some text").toList) (by decide)).1).mpr
      (by decide),
   fun h =>
     absurd (((noMarkersFound_iff (("=== File: a ===\nx\n\n").toList)
         (by decide)).1).mp h)
       (by decide)⟩

/-! ## Character classes -/

theorem isNLChar_eq_true_iff {c : Char} :
    isNLChar c = true ↔ c = '\n' ∨ c = '\r' := by
  unfold isNLChar
  simp [Bool.or_eq_true, beq_iff_eq]

theorem isLineTerm_of_isNLChar {c : Char} (h : isNLChar c = true) :
    isLineTerm c = true := by
  rw [isNLChar_eq_true_iff] at h
  rcases h with rfl | rfl <;> rfl

theorem isNLChar_false_of_isLineTerm {c : Char} (h : isLineTerm c = false) :
    isNLChar c = false := by
  cases hn : isNLChar c
  · rfl
  · rw [isLineTerm_of_isNLChar hn] at h
    simp at h

theorem isFence_eq_true_iff {c : Char} :
    isFence c = true ↔ c = '=' ∨ c = '-' := by
  unfold isFence
  simp [Bool.or_eq_true, beq_iff_eq]

theorem not_isWS_of_isFence {c : Char} (h : isFence c = true) :
    isWS c = false := by
  rw [isFence_eq_true_iff] at h
  rcases h with rfl | rfl <;> decide

theorem not_isFence_of_isWS {c : Char} (h : isWS c = true) :
    isFence c = false := by
  cases hf : isFence c
  · rfl
  · rw [not_isWS_of_isFence hf] at h
    simp at h

/-! ## Run-length lemmas -/

theorem runLen_cons_pos {p : Char → Bool} {c : Char} (h : p c = true)
    (cs : List Char) : runLen p (c :: cs) = runLen p cs + 1 := by
  simp [runLen, h]

theorem runLen_cons_neg {p : Char → Bool} {c : Char} (h : p c = false)
    (cs : List Char) : runLen p (c :: cs) = 0 := by
  simp [runLen, h]

theorem runLen_le_length (p : Char → Bool) (s : List Char) :
    runLen p s ≤ s.length := by
  induction s with
  | nil => simp [runLen]
  | cons c cs ih => cases h : p c <;> simp [runLen, h] <;> omega

theorem runLen_append_all {p : Char → Bool} {xs : List Char}
    (h : ∀ c ∈ xs, p c = true) (ys : List Char) :
    runLen p (xs ++ ys) = xs.length + runLen p ys := by
  induction xs with
  | nil => simp
  | cons c cs ih =>
    rw [List.cons_append, runLen_cons_pos (h c (by simp)),
      ih (fun c hc => h c (by simp [hc]))]
    simp only [List.length_cons]
    omega

theorem runLen_append_of_lt {p : Char → Bool} {xs : List Char}
    (h : runLen p xs < xs.length) (ys : List Char) :
    runLen p (xs ++ ys) = runLen p xs := by
  induction xs with
  | nil => simp at h
  | cons c cs ih =>
    cases hc : p c
    · rw [List.cons_append, runLen_cons_neg hc, runLen_cons_neg hc]
    · have h' : runLen p cs < cs.length := by
        rw [runLen_cons_pos hc] at h
        simp only [List.length_cons] at h
        omega
      rw [List.cons_append, runLen_cons_pos hc, runLen_cons_pos hc, ih h']

theorem runLen_eq_zero_of_head {p : Char → Bool} {s : List Char}
    (h : ∀ c, s.head? = some c → p c = false) : runLen p s = 0 := by
  cases s with
  | nil => rfl
  | cons c cs => exact runLen_cons_neg (h c rfl) cs

theorem all_of_runLen_eq_length {p : Char → Bool} :
    ∀ {q : List Char}, runLen p q = q.length → ∀ c ∈ q, p c = true := by
  intro q
  induction q with
  | nil =>
    intro _ c hc
    simp at hc
  | cons a l ih =>
    intro h c hc
    cases ha : p a
    · rw [runLen_cons_neg ha] at h
      simp at h
    · rw [runLen_cons_pos ha] at h
      simp only [List.length_cons] at h
      rcases List.mem_cons.mp hc with rfl | hc'
      · exact ha
      · exact ih (by omega) c hc'

theorem getLastD_mem : ∀ (q : List Char) (d : Char), q ≠ [] → q.getLastD d ∈ q := by
  intro q
  induction q with
  | nil =>
    intro d h
    simp at h
  | cons a l ih =>
    intro d _
    rw [List.getLastD_cons]
    cases l with
    | nil => simp [List.getLastD]
    | cons x xs => exact List.mem_cons_of_mem a (ih a (by simp))

theorem runLen_lt_of_getLast {p : Char → Bool} {q : List Char} (hq : q ≠ [])
    (h : p (q.getLastD ' ') = false) : runLen p q < q.length := by
  rcases Nat.lt_or_ge (runLen p q) q.length with hlt | hge
  · exact hlt
  · exfalso
    have heq : runLen p q = q.length :=
      Nat.le_antisymm (runLen_le_length p q) hge
    have := all_of_runLen_eq_length heq (q.getLastD ' ') (getLastD_mem q ' ' hq)
    rw [h] at this
    simp at this

/-! ## Choice-list lemmas -/

theorem mem_ascFrom : ∀ (k start i : Nat),
    i ∈ ascFrom start k ↔ start ≤ i ∧ i < start + k := by
  intro k
  induction k with
  | zero =>
    intro start i
    simp only [ascFrom, List.not_mem_nil, false_iff]
    omega
  | succ k ih =>
    intro start i
    rw [ascFrom]
    simp only [List.mem_cons]
    rw [ih (start + 1)]
    omega

theorem mem_descFrom : ∀ (k top i : Nat), k ≤ top + 1 →
    (i ∈ descFrom top k ↔ top + 1 - k ≤ i ∧ i ≤ top) := by
  intro k
  induction k with
  | zero =>
    intro top i h
    simp [descFrom]
    omega
  | succ k ih =>
    intro top i h
    rw [descFrom]
    simp only [List.mem_cons]
    rw [ih (top - 1) i (by omega)]
    omega

theorem mem_wsChoices {s : List Char} {i : Nat} :
    i ∈ wsChoices s ↔ i ≤ runLen isWS s := by
  unfold wsChoices
  rw [mem_descFrom _ _ _ (by omega)]
  omega

theorem mem_fenceChoices {s : List Char} {i : Nat} :
    i ∈ fenceChoices s ↔ 3 ≤ i ∧ i ≤ runLen isFence s := by
  unfold fenceChoices
  dsimp only
  split
  · rename_i h
    rw [mem_descFrom _ _ _ (by omega)]
    omega
  · rename_i h
    simp only [List.not_mem_nil, false_iff]
    omega

theorem wsChoices_eq_cons (s : List Char) :
    wsChoices s =
      runLen isWS s :: descFrom (runLen isWS s - 1) (runLen isWS s) := rfl

theorem fenceChoices_eq_cons {s : List Char} (h : 3 ≤ runLen isFence s) :
    fenceChoices s =
      runLen isFence s ::
        descFrom (runLen isFence s - 1) (runLen isFence s - 3) := by
  unfold fenceChoices
  dsimp only
  rw [if_pos h]
  have he : runLen isFence s - 2 = (runLen isFence s - 3) + 1 := by omega
  rw [he, descFrom]

theorem ascFrom_findSome?_eq {β : Type} (f : Nat → Option β) :
    ∀ (k start j : Nat) (v : β), j < k →
      (∀ i, i < j → f (start + i) = none) → f (start + j) = some v →
      (ascFrom start k).findSome? f = some v := by
  intro k
  induction k with
  | zero =>
    intro start j v hj
    omega
  | succ k ih =>
    intro start j v hj hfail hsucc
    rw [ascFrom, List.findSome?_cons]
    cases j with
    | zero =>
      rw [show start + 0 = start from rfl] at hsucc
      rw [hsucc]
    | succ j =>
      have h0 : f start = none := by
        have := hfail 0 (by omega)
        simpa using this
      rw [h0]
      have hsucc' : f (start + 1 + j) = some v := by
        have harr : start + 1 + j = start + (j + 1) := by omega
        rw [harr]
        exact hsucc
      refine ih (start + 1) j v (by omega) ?_ hsucc'
      intro i hi
      have hfi := hfail (i + 1) (by omega)
      have harr : start + (i + 1) = start + 1 + i := by omega
      rw [harr] at hfi
      exact hfi

/-! ## `nlLens` and `hChoices` evaluation -/

theorem nlLens_eq_nil {s : List Char} (h : isNLChar (s.headD ' ') = false) :
    nlLens s = [] := by
  match s with
  | [] => rfl
  | [c] =>
    have hc : isNLChar c = false := by simpa using h
    unfold isNLChar at hc
    have hb := Bool.or_eq_false_iff.mp hc
    simp [nlLens, hb.1]
  | c :: c2 :: t =>
    have hc : isNLChar c = false := by simpa using h
    unfold isNLChar at hc
    have hb := Bool.or_eq_false_iff.mp hc
    simp [nlLens, hb.1, hb.2]

theorem nlLens_cons_lf (rest : List Char) : nlLens ('\n' :: rest) = [1] := by
  cases rest with
  | nil => rfl
  | cons c2 t => rfl

theorem hChoices_cons_lf (rest : List Char) : hChoices ('\n' :: rest) = [1] := by
  unfold hChoices
  rw [nlLens_cons_lf]
  rfl

theorem hChoices_eq_nil {s : List Char} (hne : s ≠ [])
    (h : isNLChar (s.headD ' ') = false) : hChoices s = [] := by
  unfold hChoices
  rw [nlLens_eq_nil h]
  cases s with
  | nil => simp at hne
  | cons c t => rfl

/-! ## Head/last helpers -/

theorem headD_append_left {l₁ l₂ : List Char} (h : l₁ ≠ []) (d : Char) :
    (l₁ ++ l₂).headD d = l₁.headD d := by
  cases l₁ with
  | nil => simp at h
  | cons c t => rfl

theorem headD_mem {l : List Char} (h : l ≠ []) (d : Char) : l.headD d ∈ l := by
  cases l with
  | nil => simp at h
  | cons c t => simp

theorem getLastD_append_left {l₁ l₂ : List Char} (h : l₂ ≠ []) (d : Char) :
    (l₁ ++ l₂).getLastD d = l₂.getLastD d := by
  rw [List.getLastD_eq_getLast?, List.getLastD_eq_getLast?, List.getLast?_append]
  cases hl : l₂.getLast? with
  | none =>
    rw [List.getLast?_eq_none_iff] at hl
    exact absurd hl h
  | some x => rfl

theorem getLastD_drop {p : List Char} {e : Nat} (h : e < p.length) (d : Char) :
    (p.drop e).getLastD d = p.getLastD d := by
  conv_rhs => rw [← List.take_append_drop e p]
  rw [getLastD_append_left]
  intro hnil
  have := congrArg List.length hnil
  rw [List.length_drop] at this
  simp at this
  omega

theorem drop_ne_nil_of_lt {p : List Char} {e : Nat} (h : e < p.length) :
    p.drop e ≠ [] := by
  intro hnil
  have := congrArg List.length hnil
  rw [List.length_drop] at this
  simp at this
  omega

/-! ## The decisive matcher lemmas -/

/-- FAILURE: starting strictly inside a path remainder `q` (no
line terminators, non-whitespace last character) that is followed by a
whitespace character, the `\s*[=-]{3,}(?:\r?\n|$)` tail cannot complete:
the whitespace run stops inside `q`, any fence run then stops at the
whitespace character after `q` at the latest, and the position after the
fences holds a non-newline character. -/
theorem tailFGH_none (q u : List Char) (hq : q ≠ [])
    (hqlt : ∀ c ∈ q, isLineTerm c = false)
    (hql : isWS (q.getLastD ' ') = false)
    (hu : u ≠ []) (huw : isWS (u.headD ' ') = true)
    (hun : isNLChar (u.headD ' ') = false) :
    tailFGH (q ++ u) = none := by
  unfold tailFGH
  rw [List.findSome?_eq_none_iff]
  intro f hf
  rw [mem_wsChoices] at hf
  have hqrun : runLen isWS q < q.length := runLen_lt_of_getLast hq hql
  have hrun : runLen isWS (q ++ u) = runLen isWS q := runLen_append_of_lt hqrun u
  have hflt : f < q.length := by omega
  rw [List.drop_append_of_le_length (by omega)]
  rw [List.findSome?_eq_none_iff]
  intro g hg
  rw [mem_fenceChoices] at hg
  have hfence_u : runLen isFence u = 0 := by
    apply runLen_eq_zero_of_head
    intro c hc
    have hcu : c = u.headD ' ' := by
      cases u with
      | nil => simp at hu
      | cons a t =>
        simp only [List.head?_cons, Option.some.injEq] at hc
        rw [← hc]
        rfl
    rw [hcu]
    exact not_isFence_of_isWS huw
  have hgle : g ≤ (q.drop f).length := by
    rcases Nat.lt_or_ge (runLen isFence (q.drop f)) (q.drop f).length with hlt | hge2
    · have hr2 := runLen_append_of_lt hlt u
      omega
    · have heq : runLen isFence (q.drop f) = (q.drop f).length :=
        Nat.le_antisymm (runLen_le_length _ _) hge2
      have hall : ∀ c ∈ q.drop f, isFence c = true := all_of_runLen_eq_length heq
      have hr2 := runLen_append_all hall u
      rw [hfence_u] at hr2
      omega
  rw [List.drop_append_of_le_length hgle]
  have hnl : hChoices ((q.drop f).drop g ++ u) = [] := by
    cases hqdg : (q.drop f).drop g with
    | nil =>
      rw [List.nil_append]
      exact hChoices_eq_nil hu hun
    | cons c t =>
      apply hChoices_eq_nil
      · simp
      · have hcq : c ∈ q := by
          have h1 : c ∈ (q.drop f).drop g := by rw [hqdg]; simp
          exact List.drop_subset _ _ (List.drop_subset _ _ h1)
        have hlt := hqlt c hcq
        have hnlc := isNLChar_false_of_isLineTerm hlt
        simpa using hnlc
  rw [hnl]
  rfl

/-- SUCCESS of the tail right after the path: whitespace `w3`, fences
`f2`, then the closing newline. -/
theorem tailFGH_end (w3 f2 rest : List Char)
    (hw3w : ∀ c ∈ w3, isWS c = true)
    (hf2 : ∀ c ∈ f2, isFence c = true) (hf2len : 3 ≤ f2.length) :
    tailFGH (w3 ++ (f2 ++ '\n' :: rest)) =
      some (w3.length + f2.length + 1) := by
  unfold tailFGH
  have hf2ne : f2 ≠ [] := by
    intro h
    rw [h] at hf2len
    simp at hf2len
  have hws : runLen isWS (w3 ++ (f2 ++ '\n' :: rest)) = w3.length := by
    rw [runLen_append_all hw3w]
    have hz : runLen isWS (f2 ++ '\n' :: rest) = 0 := by
      apply runLen_eq_zero_of_head
      intro c hc
      obtain ⟨d, t, hf2eq⟩ := List.exists_cons_of_ne_nil hf2ne
      rw [hf2eq] at hc
      simp only [List.cons_append, List.head?_cons, Option.some.injEq] at hc
      rw [← hc]
      exact not_isWS_of_isFence (hf2 d (by rw [hf2eq]; simp))
    omega
  rw [wsChoices_eq_cons, hws, List.findSome?_cons, List.drop_left]
  have hfrun : runLen isFence (f2 ++ '\n' :: rest) = f2.length := by
    rw [runLen_append_all hf2, runLen_cons_neg (by decide) rest]
    omega
  rw [fenceChoices_eq_cons (by rw [hfrun]; omega), hfrun,
    List.findSome?_cons, List.drop_left, hChoices_cons_lf,
    List.findSome?_cons]

/-- The lazy capture takes exactly the path: every shorter capture fails
by `tailFGH_none`, and at length `p.length` the tail completes. -/
theorem matchTail_marker (p w3 f2 rest : List Char)
    (hp : p ≠ []) (hplt : ∀ c ∈ p, isLineTerm c = false)
    (hpl : isWS (p.getLastD ' ') = false)
    (hw3 : w3 ≠ []) (hw3w : ∀ c ∈ w3, isWS c = true)
    (hw3n : ∀ c ∈ w3, isNLChar c = false)
    (hf2 : ∀ c ∈ f2, isFence c = true) (hf2len : 3 ≤ f2.length) :
    matchTail (p ++ (w3 ++ (f2 ++ '\n' :: rest))) =
      some (p.length + (w3.length + f2.length + 1), p) := by
  unfold matchTail dotChoices
  apply ascFrom_findSome?_eq _ _ 0 p.length
  · have hge : p.length ≤ runLen isDotChar (p ++ (w3 ++ (f2 ++ '\n' :: rest))) := by
      have hall : ∀ c ∈ p, isDotChar c = true := by
        intro c hc
        unfold isDotChar
        rw [hplt c hc]
        rfl
      rw [runLen_append_all hall]
      omega
    omega
  · intro e he
    simp only [Nat.zero_add]
    rw [List.drop_append_of_le_length (by omega)]
    rw [tailFGH_none (p.drop e) (w3 ++ (f2 ++ '\n' :: rest))
      (drop_ne_nil_of_lt he)
      (fun c hc => hplt c (List.drop_subset _ _ hc))
      (by rw [getLastD_drop he]; exact hpl)
      (by simp [hw3])
      (by rw [headD_append_left hw3]; exact hw3w _ (headD_mem hw3 ' '))
      (by rw [headD_append_left hw3]; exact hw3n _ (headD_mem hw3 ' '))]
    rfl
  · simp only [Nat.zero_add]
    rw [List.drop_left, tailFGH_end w3 f2 rest hw3w hf2 hf2len, List.take_left]
    rfl

/-- A full tolerant marker — newline, any 3+ fences, whitespace, the
literal `File:`, whitespace, the path, whitespace, 3+ fences, newline —
matches with the path as the capture, whatever text follows. -/
theorem matchAt_marker (f1 w1 w2 p w3 f2 rest : List Char)
    (hf1 : ∀ c ∈ f1, isFence c = true) (hf1len : 3 ≤ f1.length)
    (hw1 : ∀ c ∈ w1, isWS c = true)
    (hw2 : ∀ c ∈ w2, isWS c = true)
    (hp : p ≠ []) (hplt : ∀ c ∈ p, isLineTerm c = false)
    (hph : isWS (p.headD ' ') = false) (hpl : isWS (p.getLastD ' ') = false)
    (hw3 : w3 ≠ []) (hw3w : ∀ c ∈ w3, isWS c = true)
    (hw3n : ∀ c ∈ w3, isNLChar c = false)
    (hf2 : ∀ c ∈ f2, isFence c = true) (hf2len : 3 ≤ f2.length) :
    matchAt false
      ('\n' :: (f1 ++ (w1 ++ (("File:").toList ++
        (w2 ++ (p ++ (w3 ++ (f2 ++ '\n' :: rest)))))))) =
      some (f1.length + w1.length + w2.length + p.length + w3.length +
        f2.length + 7, p) := by
  have hFile : ("File:").toList ++ (w2 ++ (p ++ (w3 ++ (f2 ++ '\n' :: rest)))) =
      'F' :: (("ile:").toList ++ (w2 ++ (p ++ (w3 ++ (f2 ++ '\n' :: rest))))) := rfl
  unfold matchAt
  have haCh : aChoices false
      ('\n' :: (f1 ++ (w1 ++ (("File:").toList ++
        (w2 ++ (p ++ (w3 ++ (f2 ++ '\n' :: rest)))))))) = [1] := by
    unfold aChoices
    rw [nlLens_cons_lf]
    rfl
  rw [haCh, List.findSome?_cons]
  have hdrop1 : ('\n' :: (f1 ++ (w1 ++ (("File:").toList ++
      (w2 ++ (p ++ (w3 ++ (f2 ++ '\n' :: rest)))))))).drop 1 =
      f1 ++ (w1 ++ (("File:").toList ++
        (w2 ++ (p ++ (w3 ++ (f2 ++ '\n' :: rest)))))) := rfl
  rw [hdrop1]
  have hbz : runLen isFence (w1 ++ (("File:").toList ++
      (w2 ++ (p ++ (w3 ++ (f2 ++ '\n' :: rest)))))) = 0 := by
    cases w1 with
    | nil =>
      rw [List.nil_append, hFile]
      exact runLen_cons_neg (by decide) _
    | cons a t =>
      rw [List.cons_append]
      exact runLen_cons_neg (not_isFence_of_isWS (hw1 a (by simp))) _
  have hbrun : runLen isFence (f1 ++ (w1 ++ (("File:").toList ++
      (w2 ++ (p ++ (w3 ++ (f2 ++ '\n' :: rest))))))) = f1.length := by
    rw [runLen_append_all hf1, hbz]
    omega
  rw [fenceChoices_eq_cons (by rw [hbrun]; omega), hbrun,
    List.findSome?_cons, List.drop_left]
  have hcz : runLen isWS (("File:").toList ++
      (w2 ++ (p ++ (w3 ++ (f2 ++ '\n' :: rest))))) = 0 := by
    rw [hFile]
    exact runLen_cons_neg (by decide) _
  have hcrun : runLen isWS (w1 ++ (("File:").toList ++
      (w2 ++ (p ++ (w3 ++ (f2 ++ '\n' :: rest)))))) = w1.length := by
    rw [runLen_append_all hw1, hcz]
    omega
  rw [wsChoices_eq_cons, hcrun, List.findSome?_cons, List.drop_left]
  have hpre : (("File:").toList).isPrefixOf (("File:").toList ++
      (w2 ++ (p ++ (w3 ++ (f2 ++ '\n' :: rest))))) = true := by
    rw [List.isPrefixOf_iff_prefix]
    exact List.prefix_append _ _
  rw [if_pos hpre]
  have hlen5 : (("File:").toList).length = 5 := rfl
  rw [List.drop_left' hlen5]
  have hdz : runLen isWS (p ++ (w3 ++ (f2 ++ '\n' :: rest))) = 0 := by
    cases p with
    | nil => exact absurd rfl hp
    | cons a t =>
      rw [List.cons_append]
      refine runLen_cons_neg ?_ _
      simpa using hph
  have hdrun : runLen isWS (w2 ++ (p ++ (w3 ++ (f2 ++ '\n' :: rest)))) =
      w2.length := by
    rw [runLen_append_all hw2, hdz]
    omega
  rw [wsChoices_eq_cons, hdrun, List.findSome?_cons, List.drop_left]
  rw [matchTail_marker p w3 f2 rest hp hplt hpl hw3 hw3w hw3n hf2 hf2len]
  simp only [Option.map_some', Option.some.injEq, Prod.mk.injEq]
  constructor
  · omega
  · trivial

/-! ## Good paths survive trimming, slash-normalisation and sanitisation -/

theorem goodPath_parts {p : List Char} (h : goodPath p = true) :
    p ≠ [] ∧ (∀ c ∈ p, (c == '\\') = false ∧ isLineTerm c = false) ∧
    isWS (p.headD ' ') = false ∧ isWS (p.getLastD ' ') = false ∧
    (p.headD ' ' == '/') = false ∧ (['.', '/'].isPrefixOf p) = false ∧
    p ≠ ['.', '.'] ∧ (['.', '.', '/'].isPrefixOf p) = false ∧
    (['/', '.', '.'].isSuffixOf p) = false ∧
    hasInfix (['/', '.', '.', '/']) p = false ∧
    (p.getLastD ' ' == '/') = false := by
  unfold goodPath at h
  simp only [Bool.and_eq_true, Bool.not_eq_true', List.all_eq_true] at h
  obtain ⟨⟨⟨⟨⟨⟨⟨⟨⟨⟨h1, h2⟩, h3⟩, h4⟩, h5⟩, h6⟩, h7⟩, h8⟩, h9⟩, h10⟩, h11⟩ := h
  refine ⟨?_, ?_, h3, h4, h5, h6, ?_, h8, h9, h10, h11⟩
  · intro hnil
    rw [hnil] at h1
    simp at h1
  · intro c hc
    have hcc := h2 c hc
    simp only [Bool.and_eq_true, Bool.not_eq_true'] at hcc
    exact hcc
  · intro hpp
    rw [hpp] at h7
    simp at h7

theorem normSlash_id {p : List Char} (h : ∀ c ∈ p, (c == '\\') = false) :
    normSlash p = p := by
  induction p with
  | nil => rfl
  | cons c cs ih =>
    unfold normSlash
    simp only [List.map_cons]
    rw [show ((if c == '\\' then '/' else c) = c) from by rw [h c (by simp)]; rfl]
    have := ih (fun d hd => h d (by simp [hd]))
    unfold normSlash at this
    rw [this]

theorem dropWhile_eq_self_of_head {p : Char → Bool} {l : List Char}
    (h : ∀ c, l.head? = some c → p c = false) : l.dropWhile p = l := by
  cases l with
  | nil => rfl
  | cons c cs =>
    rw [List.dropWhile_cons]
    rw [h c rfl]
    simp

theorem trimWS_id {p : List Char} (hh : isWS (p.headD ' ') = false)
    (hl : isWS (p.getLastD ' ') = false) : trimWS p = p := by
  unfold trimWS
  cases hp : p with
  | nil => rfl
  | cons c cs =>
    rw [← hp]
    have h1 : p.dropWhile isWS = p := by
      apply dropWhile_eq_self_of_head
      intro d hd
      have : d = p.headD ' ' := by
        rw [hp] at hd ⊢
        simpa using hd.symm
      rw [this]
      exact hh
    rw [h1]
    have h2 : p.reverse.dropWhile isWS = p.reverse := by
      apply dropWhile_eq_self_of_head
      intro d hd
      rw [List.head?_reverse] at hd
      have : d = p.getLastD ' ' := by
        rw [List.getLastD_eq_getLast?, hd]
        rfl
      rw [this]
      exact hl
    rw [h2, List.reverse_reverse]

theorem stripLeadingDotSlash_id {p : List Char}
    (hh : (p.headD ' ' == '/') = false)
    (hpre : (['.', '/'].isPrefixOf p) = false) :
    stripLeadingDotSlash p = p := by
  unfold stripLeadingDotSlash
  split
  · rename_i rest
    simp at hpre
  · rename_i rest
    simp at hh
  · rfl

theorem hasInfix_cons_of {needle : List Char} {c : Char} {rest : List Char}
    (h : hasInfix needle rest = true) : hasInfix needle (c :: rest) = true := by
  unfold hasInfix
  rw [h]
  simp

theorem isSuffixOf_cons_of {needle : List Char} {c : Char} {rest : List Char}
    (h : needle.isSuffixOf rest = true) : needle.isSuffixOf (c :: rest) = true := by
  rw [List.isSuffixOf_iff_suffix] at h ⊢
  exact h.trans (List.suffix_cons c rest)

theorem isSep_char {c : Char} (hc : isSep c = true)
    (hb : (c == '\\') = false) : c = '/' := by
  unfold isSep at hc
  simp only [Bool.or_eq_true, beq_iff_eq] at hc
  rcases hc with h | h
  · exact h
  · rw [h] at hb
    simp at hb

theorem ddMatchMid_none {s : List Char}
    (hbs : ∀ c ∈ s, (c == '\\') = false)
    (hinf : hasInfix (['/', '.', '.', '/']) s = false)
    (hsuf : (['/', '.', '.'].isSuffixOf s) = false) :
    ddMatchMid s = none := by
  unfold ddMatchMid
  split
  · rename_i c t
    by_cases hc : isSep c = true
    · have hcs : c = '/' := isSep_char hc (hbs c (by simp))
      subst hcs
      cases t with
      | nil =>
        exfalso
        rw [show (['/', '.', '.'].isSuffixOf ['/', '.', '.']) = true by decide]
          at hsuf
        simp at hsuf
      | cons d t' =>
        by_cases hd : isSep d = true
        · exfalso
          have hds : d = '/' := isSep_char hd (hbs d (by simp))
          subst hds
          have hstart : hasInfix (['/', '.', '.', '/'])
              ('/' :: '.' :: '.' :: '/' :: t') = true := by
            unfold hasInfix
            simp [List.isPrefixOf]
          rw [hstart] at hinf
          simp at hinf
        · have hdt : ddTail (d :: t') = none := by
            show (if isSep d = true then some ([d], t') else none) = none
            rw [show isSep d = false from by simpa using hd]
            rfl
          rw [if_pos hc, hdt]
          rfl
    · rw [if_neg]
      simpa using hc
  · rfl

theorem ddRunF_cons_none {fuel : Nat} {a : Bool} {c : Char} {cs : List Char}
    (h : ddMatch a (c :: cs) = none) :
    ddRunF (fuel + 1) a (c :: cs) = c :: ddRunF fuel false cs := by
  have hstep : ddRunF (fuel + 1) a (c :: cs) =
      match ddMatch a (c :: cs) with
      | some (repl, r) => repl ++ ddRunF fuel false r
      | none => c :: ddRunF fuel false cs := rfl
  rw [hstep, h]

theorem ddRunF_false_id :
    ∀ (fuel : Nat) (s : List Char), s.length ≤ fuel →
      (∀ c ∈ s, (c == '\\') = false) →
      hasInfix (['/', '.', '.', '/']) s = false →
      (['/', '.', '.'].isSuffixOf s) = false →
      ddRunF fuel false s = s := by
  intro fuel
  induction fuel with
  | zero =>
    intro s hlen _ _ _
    cases s with
    | nil => rfl
    | cons c cs => simp at hlen
  | succ fuel ih =>
    intro s hlen hbs hinf hsuf
    cases s with
    | nil => rfl
    | cons c cs =>
      have hmid : ddMatch false (c :: cs) = none := by
        unfold ddMatch
        simp only [Bool.false_eq_true, if_false]
        exact ddMatchMid_none hbs hinf hsuf
      rw [ddRunF_cons_none hmid]
      congr 1
      apply ih cs (by simpa using hlen)
        (fun d hd => hbs d (by simp [hd]))
      · cases hi : hasInfix (['/', '.', '.', '/']) cs
        · rfl
        · rw [hasInfix_cons_of hi] at hinf
          simp at hinf
      · cases hsf : (['/', '.', '.'].isSuffixOf cs)
        · rfl
        · rw [isSuffixOf_cons_of hsf] at hsuf
          simp at hsuf

theorem sanitizePath_id {p : List Char} (h : goodPath p = true) :
    sanitizePath p = p := by
  obtain ⟨hne, hchar, hh, hl, hslash, hdotslash, hdd, hddpre, hddsuf, hddinf, _⟩ :=
    goodPath_parts h
  unfold sanitizePath
  rw [normSlash_id (fun c hc => (hchar c hc).1)]
  rw [stripLeadingDotSlash_id hslash hdotslash]
  unfold ddRun
  cases p with
  | nil => rfl
  | cons c cs =>
    have hs : ddMatchStart (c :: cs) = none := by
      unfold ddMatchStart
      split
      · rename_i t heq
        cases t with
        | nil => exact absurd heq hdd
        | cons d t' =>
          unfold ddTail
          by_cases hd : isSep d = true
          · exfalso
            have hds : d = '/' :=
              isSep_char hd ((hchar d (by rw [heq]; simp)).1)
            subst hds
            rw [heq] at hddpre
            simp [List.isPrefixOf] at hddpre
          · show (if isSep d = true then some ([d], t') else none) = none
            rw [show isSep d = false from by simpa using hd]
            rfl
      · rfl
    have hm : ddMatchMid (c :: cs) = none :=
      ddMatchMid_none (fun d hd => (hchar d hd).1) hddinf hddsuf
    have hstart : ddMatch true (c :: cs) = none := by
      unfold ddMatch
      rw [if_pos (rfl : true = true), hs]
      exact hm
    simp only [List.length_cons]
    rw [ddRunF_cons_none hstart]
    congr 1
    apply ddRunF_false_id cs.length cs le_rfl
      (fun d hd => (hchar d (by simp [hd])).1)
    · cases hi : hasInfix (['/', '.', '.', '/']) cs
      · rfl
      · rw [hasInfix_cons_of hi] at hddinf
        simp at hddinf
    · cases hsf : (['/', '.', '.'].isSuffixOf cs)
      · rfl
      · rw [isSuffixOf_cons_of hsf] at hddsuf
        simp at hddsuf

/-! ## Bundle layout: chunks, the header part, and the tail part -/

theorem length_normSlash (p : List Char) : (normSlash p).length = p.length := by
  unfold normSlash
  simp

theorem chunk_length (f : FileEntry) :
    (chunk f).length = f.path.length + f.content.length + 17 := by
  unfold chunk markerLine
  rw [show ("=== File: ").toList =
      ['=', '=', '=', ' ', 'F', 'i', 'l', 'e', ':', ' '] from by decide,
    show (" ===").toList = [' ', '=', '=', '='] from by decide]
  simp only [List.length_cons, List.length_append, List.length_nil,
    length_normSlash]
  omega

theorem cons_encodeFile (f : FileEntry) :
    '\n' :: encodeFile f = chunk f ++ ['\n'] := by
  unfold encodeFile chunk markerLine
  rw [show (" ===\n").toList = (" ===").toList ++ ['\n'] from by decide,
    show ("\n\n").toList = ['\n', '\n'] from by decide]
  simp

theorem encode_chunk_shift : ∀ files : List FileEntry,
    '\n' :: (files.map encodeFile).flatten =
      (files.map chunk).flatten ++ ['\n'] := by
  intro files
  induction files with
  | nil => rfl
  | cons f fs ih =>
    simp only [List.map_cons, List.flatten_cons]
    rw [show '\n' :: (encodeFile f ++ (fs.map encodeFile).flatten) =
      ('\n' :: encodeFile f) ++ (fs.map encodeFile).flatten from rfl]
    rw [cons_encodeFile, List.append_assoc]
    rw [show (['\n'] : List Char) ++ (fs.map encodeFile).flatten =
      '\n' :: (fs.map encodeFile).flatten from rfl]
    rw [ih, List.append_assoc]

theorem doFlatten_decomp (files : List FileEntry) :
    doFlatten files = headerPart files ++ tailText files := by
  unfold doFlatten headerPart tailText
  rw [show ("\n\n").toList = ['\n', '\n'] from by decide]
  rw [← encode_chunk_shift files]
  simp [List.append_assoc]

theorem matchAt_chunk {f : FileEntry} (hgp : goodPath f.path = true)
    (rest : List Char) :
    matchAt false (chunk f ++ rest) = some (f.path.length + 16, f.path) := by
  obtain ⟨hne, hchar, hh, hl, _, _, _, _, _, _, _⟩ := goodPath_parts hgp
  have hshape : chunk f ++ rest =
      '\n' :: (['=', '=', '='] ++ ([' '] ++ (("File:").toList ++
        ([' '] ++ (f.path ++ ([' '] ++ (['=', '=', '='] ++
          '\n' :: (f.content ++ '\n' :: rest)))))))) := by
    unfold chunk markerLine
    rw [normSlash_id (fun c hc => (hchar c hc).1)]
    rw [show ("=== File: ").toList =
        ['=', '=', '='] ++ ([' '] ++ (("File:").toList ++ [' '])) from by decide,
      show (" ===").toList = [' '] ++ (['=', '=', '='] : List Char) from by decide]
    simp [List.append_assoc]
  rw [hshape]
  have hm := matchAt_marker ['=', '=', '='] [' '] [' '] f.path [' ']
    ['=', '=', '='] (f.content ++ '\n' :: rest)
    (by decide) (by decide) (by decide) (by decide)
    hne (fun c hc => (hchar c hc).2) hh hl
    (by decide) (by decide) (by decide) (by decide) (by decide)
  rw [hm]
  simp only [List.length_cons, List.length_nil, Option.some.injEq,
    Prod.mk.injEq]
  exact ⟨by omega, trivial⟩

/-! ## Content cleanup on encoder output -/

theorem ascFrom_find?_eq (p : Nat → Bool) :
    ∀ (k start j : Nat), j < k →
      (∀ i, i < j → p (start + i) = false) → p (start + j) = true →
      (ascFrom start k).find? p = some (start + j) := by
  intro k
  induction k with
  | zero =>
    intro start j hj
    omega
  | succ k ih =>
    intro start j hj hfail hsucc
    rw [ascFrom]
    cases j with
    | zero =>
      rw [Nat.add_zero] at hsucc
      rw [List.find?_cons_of_pos _ hsucc]
      simp
    | succ j =>
      have h0 : p start = false := by simpa using hfail 0 (by omega)
      rw [List.find?_cons_of_neg _ (by simp [h0])]
      have hsucc' : p (start + 1 + j) = true := by
        rw [show start + 1 + j = start + (j + 1) from by omega]
        exact hsucc
      have hres := ih (start + 1) j (by omega) (fun i hi => by
        have hfi := hfail (i + 1) (by omega)
        rwa [show start + (i + 1) = start + 1 + i from by omega] at hfi) hsucc'
      rw [hres]
      rw [show start + 1 + j = start + (j + 1) from by omega]

theorem allWS_append {c t : List Char} :
    allWS (c ++ t) = (allWS c && allWS t) := by
  unfold allWS
  exact List.all_append

theorem leadOK_spec {c : List Char} (h : leadOK c = true) :
    ∀ k ≤ c.length,
      (allWS (c.take k) && isNLChar (((c ++ ['\n']).drop k).headD ' ')) =
        false := by
  intro k hk
  unfold leadOK at h
  rw [List.all_eq_true] at h
  have hh := h k (by rw [List.mem_range]; omega)
  rw [Bool.not_eq_true'] at hh
  exact hh

theorem trailOK_spec {c : List Char} (h : trailOK c = true) :
    ∀ j < c.length,
      (isNLChar ((c.drop j).headD ' ') && allWS (c.drop (j + 1))) = false := by
  intro j hj
  unfold trailOK at h
  rw [List.all_eq_true] at h
  have hh := h j (by rw [List.mem_range]; omega)
  rw [Bool.not_eq_true'] at hh
  exact hh

theorem not_allWS_of_leadOK {c : List Char} (h : leadOK c = true) :
    allWS c = false := by
  have hl := leadOK_spec h c.length le_rfl
  rw [List.take_length, List.drop_left] at hl
  rw [show isNLChar ((['\n'] : List Char).headD ' ') = true from by decide,
    Bool.and_true] at hl
  exact hl

theorem stripLeadNL_good_one {c : List Char} (h : leadOK c = true) :
    stripLeadNL (c ++ ['\n']) = c ++ ['\n'] := by
  have hnone : (descFrom ((c ++ ['\n']).length - 1) (c ++ ['\n']).length).find?
      (fun k => allWS ((c ++ ['\n']).take k) &&
        isNLChar (((c ++ ['\n']).drop k).headD ' ')) = none := by
    apply List.find?_eq_none.mpr
    intro k hk hcontra
    have hc : (allWS ((c ++ ['\n']).take k) &&
        isNLChar (((c ++ ['\n']).drop k).headD ' ')) = true := hcontra
    rw [List.length_append, List.length_cons, List.length_nil] at hk
    rw [mem_descFrom _ _ _ (by omega)] at hk
    have hkle : k ≤ c.length := by omega
    rw [List.take_append_of_le_length hkle] at hc
    rw [leadOK_spec h k hkle] at hc
    exact absurd hc (by simp)
  unfold stripLeadNL
  rw [hnone]

theorem stripLeadNL_good_two {c : List Char} (h : leadOK c = true) :
    stripLeadNL (c ++ ['\n', '\n']) = c ++ ['\n', '\n'] := by
  have hnone : (descFrom ((c ++ ['\n', '\n']).length - 1)
      (c ++ ['\n', '\n']).length).find?
      (fun k => allWS ((c ++ ['\n', '\n']).take k) &&
        isNLChar (((c ++ ['\n', '\n']).drop k).headD ' ')) = none := by
    apply List.find?_eq_none.mpr
    intro k hk hcontra
    have hc : (allWS ((c ++ ['\n', '\n']).take k) &&
        isNLChar (((c ++ ['\n', '\n']).drop k).headD ' ')) = true := hcontra
    rw [List.length_append, List.length_cons, List.length_cons,
      List.length_nil] at hk
    rw [mem_descFrom _ _ _ (by omega)] at hk
    rcases Nat.lt_or_ge k (c.length + 1) with hklt | hkge
    · have hkle : k ≤ c.length := by omega
      rw [List.take_append_of_le_length hkle] at hc
      have hdrop : (((c ++ ['\n', '\n']).drop k).headD ' ') =
          (((c ++ ['\n']).drop k).headD ' ') := by
        rw [List.drop_append_of_le_length hkle,
          List.drop_append_of_le_length hkle]
        cases c.drop k with
        | nil => rfl
        | cons d t => rfl
      rw [hdrop, leadOK_spec h k hkle] at hc
      exact absurd hc (by simp)
    · have hk1 : k = c.length + 1 := by omega
      subst hk1
      have htake : (c ++ ['\n', '\n']).take (c.length + 1) = c ++ ['\n'] := by
        rw [show c ++ ['\n', '\n'] = (c ++ ['\n']) ++ ['\n'] from by simp]
        rw [show c.length + 1 = (c ++ ['\n']).length from by simp]
        exact List.take_left _ _
      rw [htake, allWS_append, not_allWS_of_leadOK h] at hc
      exact absurd hc (by simp)
  unfold stripLeadNL
  rw [hnone]

theorem stripTrailNL_good_one {c : List Char} (ht : trailOK c = true) :
    stripTrailNL (c ++ ['\n']) = c := by
  have hsome : (ascFrom 0 (c ++ ['\n']).length).find?
      (fun j => isNLChar (((c ++ ['\n']).drop j).headD ' ') &&
        allWS (((c ++ ['\n']).drop j).drop 1)) = some c.length := by
    have hres := ascFrom_find?_eq
      (fun j => isNLChar (((c ++ ['\n']).drop j).headD ' ') &&
        allWS (((c ++ ['\n']).drop j).drop 1))
      ((c ++ ['\n']).length) 0 c.length
      (by rw [List.length_append, List.length_cons, List.length_nil]; omega)
      ?_ ?_
    · rw [Nat.zero_add] at hres
      exact hres
    · intro i hi
      show (isNLChar (((c ++ ['\n']).drop (0 + i)).headD ' ') &&
        allWS (((c ++ ['\n']).drop (0 + i)).drop 1)) = false
      rw [Nat.zero_add]
      have hile : i ≤ c.length := by omega
      rw [List.drop_append_of_le_length hile]
      have hdne : c.drop i ≠ [] := by
        intro hnil
        have := congrArg List.length hnil
        rw [List.length_drop] at this
        simp at this
        omega
      rw [headD_append_left hdne]
      rw [List.drop_append_of_le_length (by rw [List.length_drop]; omega)]
      rw [List.drop_drop, allWS_append,
        show allWS ['\n'] = true from by decide, Bool.and_true]
      rw [show i + 1 = i + 1 from rfl]
      exact trailOK_spec ht i hi
    · show (isNLChar (((c ++ ['\n']).drop (0 + c.length)).headD ' ') &&
        allWS (((c ++ ['\n']).drop (0 + c.length)).drop 1)) = true
      rw [Nat.zero_add, List.drop_left]
      decide
  unfold stripTrailNL
  rw [hsome]
  exact List.take_left c ['\n']

theorem stripTrailNL_good_two {c : List Char} (ht : trailOK c = true) :
    stripTrailNL (c ++ ['\n', '\n']) = c := by
  have hsome : (ascFrom 0 (c ++ ['\n', '\n']).length).find?
      (fun j => isNLChar (((c ++ ['\n', '\n']).drop j).headD ' ') &&
        allWS (((c ++ ['\n', '\n']).drop j).drop 1)) = some c.length := by
    have hres := ascFrom_find?_eq
      (fun j => isNLChar (((c ++ ['\n', '\n']).drop j).headD ' ') &&
        allWS (((c ++ ['\n', '\n']).drop j).drop 1))
      ((c ++ ['\n', '\n']).length) 0 c.length
      (by rw [List.length_append, List.length_cons, List.length_cons,
        List.length_nil]; omega)
      ?_ ?_
    · rw [Nat.zero_add] at hres
      exact hres
    · intro i hi
      show (isNLChar (((c ++ ['\n', '\n']).drop (0 + i)).headD ' ') &&
        allWS (((c ++ ['\n', '\n']).drop (0 + i)).drop 1)) = false
      rw [Nat.zero_add]
      have hile : i ≤ c.length := by omega
      rw [List.drop_append_of_le_length hile]
      have hdne : c.drop i ≠ [] := by
        intro hnil
        have := congrArg List.length hnil
        rw [List.length_drop] at this
        simp at this
        omega
      rw [headD_append_left hdne]
      rw [List.drop_append_of_le_length (by rw [List.length_drop]; omega)]
      rw [List.drop_drop, allWS_append,
        show allWS ['\n', '\n'] = true from by decide, Bool.and_true]
      exact trailOK_spec ht i hi
    · show (isNLChar (((c ++ ['\n', '\n']).drop (0 + c.length)).headD ' ') &&
        allWS (((c ++ ['\n', '\n']).drop (0 + c.length)).drop 1)) = true
      rw [Nat.zero_add, List.drop_left]
      decide
  unfold stripTrailNL
  rw [hsome]
  show (c ++ ['\n', '\n']).take c.length = c
  rw [List.take_append_of_le_length le_rfl]
  exact List.take_length c

theorem goodContent_parts {c : List Char} (hne : c ≠ [])
    (h : goodContent c = true) : leadOK c = true ∧ trailOK c = true := by
  unfold goodContent at h
  rw [Bool.or_eq_true, Bool.and_eq_true] at h
  rcases h with h | h
  · rw [List.isEmpty_iff] at h
    exact absurd h hne
  · exact h

theorem cleanContent_good_one {c : List Char} (h : goodContent c = true) :
    cleanContent (c ++ ['\n']) = c := by
  by_cases hc : c = []
  · subst hc
    decide
  · obtain ⟨hl, ht⟩ := goodContent_parts hc h
    unfold cleanContent
    rw [stripLeadNL_good_one hl, stripTrailNL_good_one ht]

theorem cleanContent_good_two {c : List Char} (h : goodContent c = true) :
    cleanContent (c ++ ['\n', '\n']) = c := by
  by_cases hc : c = []
  · subst hc
    decide
  · obtain ⟨hl, ht⟩ := goodContent_parts hc h
    unfold cleanContent
    rw [stripLeadNL_good_two hl, stripTrailNL_good_two ht]

/-! ## The exec loop on an encoded bundle -/

theorem findFromF_eq_some (text : List Char) :
    ∀ (fuel j m len : Nat) (cap : List Char),
      j ≤ m → m < j + fuel →
      (∀ i, j ≤ i → i < m → matchAt (i == 0) (text.drop i) = none) →
      matchAt (m == 0) (text.drop m) = some (len, cap) →
      findFromF text j fuel = some (m, len, cap) := by
  intro fuel
  induction fuel with
  | zero =>
    intro j m len cap hjm hmf
    omega
  | succ fuel ih =>
    intro j m len cap hjm hmf hfail hm
    unfold findFromF
    rcases Nat.eq_or_lt_of_le hjm with rfl | hlt
    · rw [hm]
    · rw [hfail j le_rfl hlt]
      exact ih (j + 1) m len cap (by omega) (by omega)
        (fun i h1 h2 => hfail i (by omega) h2) hm

theorem findFrom_eq_some (text : List Char) (j m len : Nat) (cap : List Char)
    (hjm : j ≤ m) (hml : m ≤ text.length)
    (hfail : ∀ i, j ≤ i → i < m → matchAt (i == 0) (text.drop i) = none)
    (hm : matchAt (m == 0) (text.drop m) = some (len, cap)) :
    findFrom text j = some (m, len, cap) := by
  unfold findFrom
  exact findFromF_eq_some text _ j m len cap hjm (by omega) hfail hm

theorem markerStartsFrom_ge : ∀ (fs : List FileEntry) (pos x : Nat),
    x ∈ markerStartsFrom pos fs → pos ≤ x := by
  intro fs
  induction fs with
  | nil =>
    intro pos x hx
    simp [markerStartsFrom] at hx
  | cons f rest ih =>
    intro pos x hx
    rw [markerStartsFrom] at hx
    rcases List.mem_cons.mp hx with rfl | hx'
    · exact le_rfl
    · have := ih _ _ hx'
      omega

theorem pos_lt_length_of_drop_cons {text X : List Char} {pos : Nat}
    (h : text.drop pos = X) (hne : X ≠ []) : pos < text.length := by
  by_contra hge
  rw [List.drop_eq_nil_of_le (by omega)] at h
  exact hne h.symm

theorem markerLine_length (f : FileEntry) :
    (markerLine f).length = f.path.length + 14 := by
  unfold markerLine
  rw [show ("=== File: ").toList =
      ['=', '=', '=', ' ', 'F', 'i', 'l', 'e', ':', ' '] from by decide,
    show (" ===").toList = [' ', '=', '=', '='] from by decide]
  simp only [List.length_append, List.length_cons, List.length_nil,
    length_normSlash]
  omega

theorem chunk_split (f : FileEntry) :
    chunk f = ('\n' :: (markerLine f ++ ['\n'])) ++ (f.content ++ ['\n']) := by
  unfold chunk
  simp

theorem chunk_ne_nil (f : FileEntry) : chunk f ≠ [] := by
  rw [chunk_split]
  simp

theorem drop_at_chunk {text : List Char} {pos0 : Nat} {f : FileEntry}
    {R : List Char} (hd : text.drop pos0 = chunk f ++ R) :
    text.drop (pos0 + (f.path.length + 16)) = (f.content ++ ['\n']) ++ R := by
  rw [← List.drop_drop, hd, chunk_split f, List.append_assoc]
  have hlen : ('\n' :: (markerLine f ++ ['\n'])).length =
      f.path.length + 16 := by
    simp only [List.length_cons, List.length_append, List.length_nil,
      markerLine_length]
  rw [← hlen]
  exact List.drop_left _ _

theorem execLoop_chunks (text : List Char) :
    ∀ (fs : List FileEntry) (fuel pos0 pos : Nat),
      fs.length ≤ fuel →
      0 < pos0 → pos ≤ pos0 →
      text.drop pos0 = (fs.map chunk).flatten ++ ['\n'] →
      (∀ f ∈ fs, goodPath f.path = true) →
      (∀ j, pos ≤ j → j < text.length →
        j ∉ markerStartsFrom pos0 fs →
        matchAt (j == 0) (text.drop j) = none) →
      execLoop text pos fuel = intendedFrom pos0 fs := by
  intro fs
  induction fs with
  | nil =>
    intro fuel pos0 pos hfuel hpos0 hpos hdrop hgood hfail
    have hnone : findFrom text pos = none := by
      rw [findFrom_eq_none_iff]
      intro i hi
      by_cases hlt : i < text.length
      · exact hfail i hi hlt (by simp [markerStartsFrom])
      · rw [List.drop_eq_nil_of_le (by omega)]
        exact matchAt_nil _
    cases fuel with
    | zero => rfl
    | succ fuel =>
      rw [execLoop_succ, hnone]
      rfl
  | cons f rest ih =>
    intro fuel pos0 pos hfuel hpos0 hpos hdrop hgood hfail
    rw [List.map_cons, List.flatten_cons, List.append_assoc] at hdrop
    have hp0lt : pos0 < text.length :=
      pos_lt_length_of_drop_cons hdrop
        (by intro hnil; exact chunk_ne_nil f (List.append_eq_nil.mp hnil).1)
    have hm : matchAt (pos0 == 0) (text.drop pos0) =
        some (f.path.length + 16, f.path) := by
      rw [show (pos0 == 0) = false from by
        rw [beq_eq_false_iff_ne]
        omega]
      rw [hdrop]
      exact matchAt_chunk (hgood f (by simp)) _
    have hfind : findFrom text pos =
        some (pos0, f.path.length + 16, f.path) := by
      apply findFrom_eq_some text pos pos0 _ _ hpos (by omega) ?_ hm
      intro i h1 h2
      apply hfail i h1 (by omega)
      intro hmem
      rw [markerStartsFrom] at hmem
      rcases List.mem_cons.mp hmem with rfl | hmem'
      · omega
      · have hge := markerStartsFrom_ge rest _ _ hmem'
        have hcl := chunk_length f
        omega
    cases fuel with
    | zero => simp at hfuel
    | succ fuel =>
      rw [execLoop_succ, hfind]
      rw [intendedFrom]
      obtain ⟨hpne, _, hph, hpl, _⟩ := goodPath_parts (hgood f (by simp))
      show (⟨trimWS f.path, pos0, pos0 + (f.path.length + 16)⟩ : MarkerMatch) ::
          execLoop text (pos0 + (f.path.length + 16)) fuel =
        ⟨f.path, pos0, pos0 + f.path.length + 16⟩ ::
          intendedFrom (pos0 + (chunk f).length) rest
      congr 1
      · rw [trimWS_id hph hpl, ← Nat.add_assoc]
      · apply ih fuel (pos0 + (chunk f).length) (pos0 + (f.path.length + 16))
          (by simpa using hfuel) (by omega)
          (by have := chunk_length f; omega) ?_
          (fun g hg => hgood g (by simp [hg])) ?_
        · rw [← List.drop_drop, hdrop]
          exact List.drop_left _ _
        · intro j h1 h2 h3
          apply hfail j (by omega) h2
          intro hmem
          rw [markerStartsFrom] at hmem
          rcases List.mem_cons.mp hmem with rfl | hmem'
          · omega
          · exact h3 hmem'

theorem headerPart_length_pos (files : List FileEntry) :
    0 < (headerPart files).length := by
  unfold headerPart
  rw [List.length_append, List.length_append, List.length_append,
    List.length_append]
  have h : 0 < ("Project Structure:\n").toList.length := by decide
  omega

theorem files_le_flatten_length (fs : List FileEntry) :
    fs.length ≤ ((fs.map chunk).flatten).length := by
  induction fs with
  | nil => simp
  | cons f rest ih =>
    rw [List.map_cons, List.flatten_cons, List.length_append,
      List.length_cons]
    have := chunk_length f
    omega

theorem findMarkers_intended (files : List FileEntry)
    (hgood : ∀ f ∈ files, goodPath f.path = true)
    (hns : noSpurious files) :
    findMarkers (doFlatten files) =
      intendedFrom (headerPart files).length files := by
  unfold findMarkers
  apply execLoop_chunks (doFlatten files) files _ _ 0
  · have h1 := files_le_flatten_length files
    have h2 : (doFlatten files).length =
        (headerPart files).length + (tailText files).length := by
      rw [doFlatten_decomp, List.length_append]
    have h3 : (tailText files).length =
        ((files.map chunk).flatten).length + 1 := by
      unfold tailText
      rw [List.length_append]
      rfl
    omega
  · exact headerPart_length_pos files
  · omega
  · rw [doFlatten_decomp]
    exact List.drop_left _ _
  · exact hgood
  · intro j _ hlt hmem
    exact hns j hlt hmem

/-! ## The extraction loop on the intended matches -/

theorem getLast?_eq_getLastD {l : List Char} (h : l ≠ []) (d : Char) :
    l.getLast? = some (l.getLastD d) := by
  rw [List.getLastD_eq_getLast?]
  cases hl : l.getLast?
  · rw [List.getLast?_eq_none_iff] at hl
    exact absurd hl h
  · rfl

theorem intendedFrom_cons (pos : Nat) (f : FileEntry)
    (rest : List FileEntry) :
    intendedFrom pos (f :: rest) =
      ⟨f.path, pos, pos + f.path.length + 16⟩ ::
        intendedFrom (pos + (chunk f).length) rest := rfl

theorem decodeLoop_cons_cons (text : List Char) (m m2 : MarkerMatch)
    (rest : List MarkerMatch) :
    decodeLoop text (m :: m2 :: rest) =
      (match decodeEntry text m m2.startIndex with
       | some g => g :: decodeLoop text (m2 :: rest)
       | none => decodeLoop text (m2 :: rest)) := rfl

theorem decodeLoop_single (text : List Char) (m : MarkerMatch) :
    decodeLoop text [m] =
      (match decodeEntry text m text.length with
       | some g => g :: decodeLoop text ([] : List MarkerMatch)
       | none => decodeLoop text []) := rfl

theorem skip_test_false {p : List Char} (hgp : goodPath p = true) :
    (p.isEmpty || p.getLast? == some '/') = false := by
  obtain ⟨hne, _, _, _, _, _, _, _, _, _, hlast⟩ := goodPath_parts hgp
  have hie : p.isEmpty = false := by
    cases hp : p with
    | nil => exact absurd hp hne
    | cons a l => rfl
  have hgl : (p.getLast? == some '/') = false := by
    rw [getLast?_eq_getLastD hne ' ']
    show (p.getLastD ' ' == '/') = false
    exact hlast
  rw [hie, hgl]
  rfl

theorem decodeEntry_chunk {text : List Char} {pos0 : Nat} {f : FileEntry}
    {R : List Char}
    (hgp : goodPath f.path = true) (hgc : goodContent f.content = true)
    (hdrop : text.drop pos0 = chunk f ++ R) :
    decodeEntry text ⟨f.path, pos0, pos0 + f.path.length + 16⟩
      (pos0 + (chunk f).length) = some f := by
  have hraw : (text.take (pos0 + (chunk f).length)).drop
      (pos0 + f.path.length + 16) = f.content ++ ['\n'] := by
    rw [List.drop_take]
    rw [show pos0 + f.path.length + 16 = pos0 + (f.path.length + 16) from
      by omega]
    rw [drop_at_chunk hdrop]
    rw [chunk_length]
    rw [show pos0 + (f.path.length + f.content.length + 17) -
        (pos0 + (f.path.length + 16)) = (f.content ++ ['\n']).length from by
      rw [List.length_append, List.length_cons, List.length_nil]
      omega]
    exact List.take_left _ _
  unfold decodeEntry
  dsimp only
  rw [sanitizePath_id hgp, skip_test_false hgp]
  rw [hraw, cleanContent_good_one hgc]
  rfl

theorem decodeEntry_chunk_last {text : List Char} {pos0 : Nat}
    {f : FileEntry}
    (hgp : goodPath f.path = true) (hgc : goodContent f.content = true)
    (hdrop : text.drop pos0 = chunk f ++ ['\n']) :
    decodeEntry text ⟨f.path, pos0, pos0 + f.path.length + 16⟩
      text.length = some f := by
  have hraw : (text.take text.length).drop (pos0 + f.path.length + 16) =
      f.content ++ ['\n', '\n'] := by
    rw [List.take_length]
    rw [show pos0 + f.path.length + 16 = pos0 + (f.path.length + 16) from
      by omega]
    rw [drop_at_chunk hdrop]
    simp
  unfold decodeEntry
  dsimp only
  rw [sanitizePath_id hgp, skip_test_false hgp]
  rw [hraw, cleanContent_good_two hgc]
  rfl

theorem decodeLoop_chunks (text : List Char) :
    ∀ (fs : List FileEntry) (pos0 : Nat),
      text.drop pos0 = (fs.map chunk).flatten ++ ['\n'] →
      (∀ f ∈ fs, goodPath f.path = true) →
      (∀ f ∈ fs, goodContent f.content = true) →
      decodeLoop text (intendedFrom pos0 fs) = fs := by
  intro fs
  induction fs with
  | nil =>
    intro pos0 _ _ _
    rfl
  | cons f rest ih =>
    intro pos0 hdrop hgp hgc
    rw [List.map_cons, List.flatten_cons, List.append_assoc] at hdrop
    cases rest with
    | nil =>
      simp only [List.map_nil, List.flatten_nil, List.nil_append] at hdrop
      -- the single marker: content runs to the end of the text
      have hlen : text.length = pos0 + (chunk f).length + 1 := by
        have hdl := congrArg List.length hdrop
        rw [List.length_drop, List.length_append, List.length_cons,
          List.length_nil] at hdl
        have hple : pos0 ≤ text.length :=
          Nat.le_of_lt (pos_lt_length_of_drop_cons hdrop
            (by intro hnil; exact chunk_ne_nil f (List.append_eq_nil.mp hnil).1))
        omega
      rw [intendedFrom_cons, intendedFrom, decodeLoop_single]
      rw [decodeEntry_chunk_last (hgp f (by simp)) (hgc f (by simp)) hdrop]
      rfl
    | cons r rest' =>
      have hdrop' : text.drop (pos0 + (chunk f).length) =
          ((r :: rest').map chunk).flatten ++ ['\n'] := by
        rw [← List.drop_drop, hdrop]
        exact List.drop_left _ _
      have htail : decodeLoop text
          (intendedFrom (pos0 + (chunk f).length) (r :: rest')) =
          r :: rest' :=
        ih (pos0 + (chunk f).length) hdrop'
          (fun g hg => hgp g (by simp [hg]))
          (fun g hg => hgc g (by simp [hg]))
      rw [intendedFrom_cons]
      rw [intendedFrom_cons (pos0 + (chunk f).length) r rest']
      rw [decodeLoop_cons_cons]
      rw [show (⟨r.path, pos0 + (chunk f).length,
          pos0 + (chunk f).length + r.path.length + 16⟩ :
          MarkerMatch).startIndex = pos0 + (chunk f).length from rfl]
      rw [decodeEntry_chunk (hgp f (by simp)) (hgc f (by simp)) hdrop]
      rw [← intendedFrom_cons (pos0 + (chunk f).length) r rest']
      rw [htail]

theorem isEmpty_false_of_ne_nil {l : List Char} (h : l ≠ []) :
    l.isEmpty = false := by
  cases l with
  | nil => exact absurd rfl h
  | cons a t => rfl

theorem trimWS_ne_nil_of_head {c : Char} {t : List Char}
    (hc : isWS c = false) : trimWS (c :: t) ≠ [] := by
  unfold trimWS
  intro h
  rw [List.reverse_eq_nil_iff, List.dropWhile_eq_nil_iff] at h
  have hd : (c :: t).dropWhile isWS = c :: t := by
    rw [List.dropWhile_cons, hc]
    rfl
  rw [hd] at h
  have hcw := h c (by rw [List.mem_reverse]; simp)
  rw [hc] at hcw
  exact Bool.false_ne_true hcw

theorem doFlatten_not_blank (files : List FileEntry) :
    (trimWS (doFlatten files)).isEmpty = false := by
  have hsh : doFlatten files = 'P' :: (("roject Structure:\n").toList ++
      (generateTree (files.map (·.path)) ++ (("\n\n").toList ++ (SEPARATOR ++
        (("\n\n").toList ++ (files.map encodeFile).flatten))))) := by
    unfold doFlatten
    rw [show ("Project Structure:\n").toList =
      'P' :: ("roject Structure:\n").toList from by decide]
    simp [List.append_assoc]
  rw [hsh]
  exact isEmpty_false_of_ne_nil
    (trimWS_ne_nil_of_head (show isWS 'P' = false from by decide))

theorem decode_encode {files : List FileEntry} (hne : files ≠ [])
    (hgp : ∀ f ∈ files, goodPath f.path = true)
    (hgc : ∀ f ∈ files, goodContent f.content = true)
    (hns : noSpurious files) :
    inflateToZip (doFlatten files) = .ok files := by
  unfold inflateToZip
  dsimp only
  rw [doFlatten_not_blank files]
  rw [findMarkers_intended files hgp hns]
  have hdl : decodeLoop (doFlatten files)
      (intendedFrom (headerPart files).length files) = files := by
    apply decodeLoop_chunks
    · rw [doFlatten_decomp]
      exact List.drop_left _ _
    · exact hgp
    · exact hgc
  have hie : (intendedFrom (headerPart files).length files).isEmpty =
      false := by
    cases files with
    | nil => exact absurd rfl hne
    | cons f rest => rfl
  rw [hie, hdl]
  have hfie : files.isEmpty = false := by
    cases files with
    | nil => exact absurd rfl hne
    | cons f rest => rfl
  rw [hfie]
  rfl

/-! ## C1, C3, C5 -/

/-- C1 (amended): decoding the encoded bundle returns exactly the original
(path, content) pairs in order, for every non-empty file list whose paths
are `goodPath` (non-empty, no backslash or line terminator, no leading or
trailing whitespace, not starting with `/` or `./`, no `..` segment, not
ending in `/`) and whose contents are `goodContent` (no newline inside the
leading or trailing whitespace run, not entirely whitespace), provided no
content completes the loose marker pattern outside the intended markers
(`noSpurious`).  The claim's unrestricted version is refuted by
`roundtrip_counterexample`: the decoder's cleanup strips a trailing
newline belonging to the content itself. -/
theorem roundtrip_good (files : List FileEntry) (hne : files ≠ [])
    (hgp : ∀ f ∈ files, goodPath f.path = true)
    (hgc : ∀ f ∈ files, goodContent f.content = true)
    (hns : noSpurious files) :
    inflateToZip (doFlatten files) = .ok files :=
  decode_encode hne hgp hgc hns

/-- C1 counterexample: a single file with the traversal-free non-empty
path `a.txt` and content `"x\n"` (arbitrary text per the claim) decodes
to content `"x"` — the trailing newline of the content is lost, so
decode(encode(entries)) ≠ entries. -/
theorem roundtrip_counterexample :
    inflateToZip (doFlatten [⟨("a.txt").toList, ("x\n").toList⟩]) =
      .ok [⟨("a.txt").toList, ("x").toList⟩] ∧
    inflateToZip (doFlatten [⟨("a.txt").toList, ("x\n").toList⟩]) ≠
      .ok [⟨("a.txt").toList, ("x\n").toList⟩] := by
  constructor
  · decide
  · decide

set_option maxRecDepth 10000 in
/-- C1 witness: the amended round-trip at the concrete file list
`[(a.txt, x)]`, every hypothesis discharged by evaluation. -/
theorem roundtrip_good_witness :
    inflateToZip (doFlatten [⟨("a.txt").toList, ("x").toList⟩]) =
      .ok [⟨("a.txt").toList, ("x").toList⟩] :=
  roundtrip_good [⟨("a.txt").toList, ("x").toList⟩] (by decide) (by decide)
    (by decide) (by unfold noSpurious; decide)

/-- C3 (amended): re-encoding the decode of an encoded bundle reproduces
the bundle byte-for-byte under the same conditions as the round-trip
(`goodPath` paths, `goodContent` contents, no spurious marker).  The
claim's unrestricted version — arbitrary content — is refuted by
`reencode_counterexample`. -/
theorem reencode_idempotent (files : List FileEntry) (hne : files ≠ [])
    (hgp : ∀ f ∈ files, goodPath f.path = true)
    (hgc : ∀ f ∈ files, goodContent f.content = true)
    (hns : noSpurious files) :
    ∀ fs', inflateToZip (doFlatten files) = .ok fs' →
      doFlatten fs' = doFlatten files := by
  intro fs' h
  rw [decode_encode hne hgp hgc hns] at h
  injection h with h'
  rw [h']

/-- C3 counterexample: for the entry `(a.txt, "x\n")` the decode of the
encoded bundle is `(a.txt, "x")`, and re-encoding that produces a bundle
that is not byte-identical to the original (it is one newline shorter). -/
theorem reencode_counterexample :
    inflateToZip (doFlatten [⟨("b.txt").toList, ("x\n").toList⟩]) =
      .ok [⟨("b.txt").toList, ("x").toList⟩] ∧
    doFlatten [⟨("b.txt").toList, ("x").toList⟩] ≠
      doFlatten [⟨("b.txt").toList, ("x\n").toList⟩] := by
  constructor
  · decide
  · decide

set_option maxRecDepth 10000 in
/-- C3 witness: the amended idempotence at the concrete file list
`[(b.txt, y)]`, every hypothesis discharged by evaluation. -/
theorem reencode_idempotent_witness :
    doFlatten [⟨("b.txt").toList, ("y").toList⟩] =
      doFlatten [⟨("b.txt").toList, ("y").toList⟩] :=
  reencode_idempotent [⟨("b.txt").toList, ("y").toList⟩] (by decide)
    (by decide) (by decide) (by unfold noSpurious; decide)
    [⟨("b.txt").toList, ("y").toList⟩] (by decide)

/-- C5: the matcher accepts a marker whose two fences are any runs of
three or more `=`/`-` characters (independently chosen, so mixed
punctuation), with arbitrary non-newline whitespace around `File:` and
around the path; and the concrete mixed-fence input
`"---- File: a.txt ----\nhello\n\n==== File: b.txt ====\nworld\n\n"`
decodes to exactly the two claimed entries in order. -/
theorem marker_tolerance :
    (∀ f1 w1 w2 p w3 f2 rest : List Char,
      (∀ c ∈ f1, isFence c = true) → 3 ≤ f1.length →
      (∀ c ∈ w1, isWS c = true) → (∀ c ∈ w2, isWS c = true) →
      p ≠ [] → (∀ c ∈ p, isLineTerm c = false) →
      isWS (p.headD ' ') = false → isWS (p.getLastD ' ') = false →
      w3 ≠ [] → (∀ c ∈ w3, isWS c = true) → (∀ c ∈ w3, isNLChar c = false) →
      (∀ c ∈ f2, isFence c = true) → 3 ≤ f2.length →
      matchAt false ('\n' :: (f1 ++ (w1 ++ (("File:").toList ++
        (w2 ++ (p ++ (w3 ++ (f2 ++ '\n' :: rest))))))))  =
        some (f1.length + w1.length + w2.length + p.length + w3.length +
          f2.length + 7, p)) ∧
    inflateToZip
        (("---- File: a.txt ----\nhello\n\n==== File: b.txt ====\nworld\n\n").toList) =
      .ok [⟨("a.txt").toList, ("hello").toList⟩,
           ⟨("b.txt").toList, ("world").toList⟩] := by
  constructor
  · intro f1 w1 w2 p w3 f2 rest hf1 hf1l hw1 hw2 hp hplt hph hpl hw3 hw3w
      hw3n hf2 hf2l
    exact matchAt_marker f1 w1 w2 p w3 f2 rest hf1 hf1l hw1 hw2 hp hplt hph
      hpl hw3 hw3w hw3n hf2 hf2l
  · decide

/-- C5 witness: the tolerance statement applied at a concrete marker with
a `-` opening fence and an `=` closing fence. -/
theorem marker_tolerance_witness :
    matchAt false (("\n--- File: a ===\n").toList) =
      some (17, ("a").toList) := by
  have h := marker_tolerance.1 ['-', '-', '-'] [' '] [' '] ['a'] [' ']
    ['=', '=', '='] [] (by decide) (by decide) (by decide) (by decide)
    (by decide) (by decide) (by decide) (by decide) (by decide) (by decide)
    (by decide) (by decide) (by decide)
  rw [show ("\n--- File: a ===\n").toList =
    '\n' :: (['-', '-', '-'] ++ ([' '] ++ (("File:").toList ++
      ([' '] ++ (['a'] ++ ([' '] ++ (['=', '=', '='] ++
        '\n' :: ([] : List Char)))))))) from by decide]
  rw [h]
  decide

end CodePacker
